import Mathlib

/-!
Verification of the fmutils field-mask library.

The Go source (fmutils.go) compiles dotted paths into a `NestedMask`
(a recursive string-keyed map) and applies three in-place operations to
protobuf messages through the protoreflect API: `Filter`, `Prune` and
`Overwrite`.  We embed protobuf messages shallowly: a message is a list of
named fields; each field value carries its presence discipline the way
protoreflect exposes it (implicit-presence scalars, explicit-presence
optional scalars, singular messages, scalar/message lists and
string-keyed maps).  Go panics (e.g. recursing into a scalar list with a
non-leaf mask, or looking up a mask key that is not a schema field in
Overwrite) are modelled with `Option`: `none` is a panic.
-/

namespace Fmutils

/-- A protobuf scalar value; the constructor records the field's type so the
type's zero value is recoverable from the value itself. -/
inductive Scalar where
  | int (v : Int)
  | str (v : String)
deriving DecidableEq, Repr

/-- Whether a scalar equals its type's zero value (proto3 default). -/
def Scalar.isZero : Scalar → Bool
  | .int v => v == 0
  | .str s => s == ""

/-- The zero value of the scalar's type. -/
def Scalar.zeroOf : Scalar → Scalar
  | .int _ => .int 0
  | .str _ => .str ""

mutual
/-- A field value as seen through protoreflect.  `msgField present m` models a
singular message field: `present = false` is an unset field (`m` then only
records the nested schema, as a typed-nil message does in Go). -/
inductive FieldVal where
  | scalar (v : Scalar)
  | optScalar (v : Option Scalar)
  | msgField (present : Bool) (m : Msg)
  | scalarList (l : List Scalar)
  | msgList (l : MsgList)
  | scalarMap (entries : List (String × Scalar))
  | msgMap (entries : MsgEntries)
deriving DecidableEq, Repr

/-- A list of messages (a repeated message field). -/
inductive MsgList where
  | nil
  | cons (m : Msg) (rest : MsgList)
deriving DecidableEq, Repr

/-- Entries of a map field with message values, in insertion order. -/
inductive MsgEntries where
  | nil
  | cons (key : String) (m : Msg) (rest : MsgEntries)
deriving DecidableEq, Repr

/-- The named fields of a message, in schema order. -/
inductive Fields where
  | nil
  | cons (name : String) (v : FieldVal) (rest : Fields)
deriving DecidableEq, Repr

/-- A protobuf message: its schema fields with their current values. -/
inductive Msg where
  | mk (fields : Fields)
deriving DecidableEq, Repr
end

/-- Whether a field is present (what `protoreflect.Message.Range` visits):
implicit scalars iff non-zero, optional scalars iff explicitly set, message
fields iff set, lists and maps iff non-empty. -/
def FieldVal.fvPresent : FieldVal → Bool
  | .scalar v => !v.isZero
  | .optScalar v => v.isSome
  | .msgField present _ => present
  | .scalarList l => !l.isEmpty
  | .msgList .nil => false
  | .msgList (.cons _ _) => true
  | .scalarMap entries => !entries.isEmpty
  | .msgMap .nil => false
  | .msgMap (.cons _ _ _) => true

mutual
/-- `protoreflect.Message.Clear`: reset a field to absent / its zero value.
The schema carried by an unset message field is zeroed as well, so a cleared
field is structurally equal to a never-set one. -/
def FieldVal.clearVal : FieldVal → FieldVal
  | .scalar v => .scalar v.zeroOf
  | .optScalar _ => .optScalar none
  | .msgField _ m => .msgField false m.defaultMsg
  | .scalarList _ => .scalarList []
  | .msgList _ => .msgList .nil
  | .scalarMap _ => .scalarMap []
  | .msgMap _ => .msgMap .nil

/-- A fresh default-valued instance of the message's type
(`protoreflect.Message.New`). -/
def Msg.defaultMsg : Msg → Msg
  | .mk fs => .mk fs.clearFields

/-- Clear every field of a field list. -/
def Fields.clearFields : Fields → Fields
  | .nil => .nil
  | .cons name v rest => .cons name v.clearVal rest.clearFields
end

/-- Look up a field value by name (`Descriptor().Fields().ByName` + `Get`). -/
def Fields.findVal : Fields → String → Option FieldVal
  | .nil, _ => none
  | .cons name v rest, k => if name = k then some v else rest.findVal k

/-- Replace the value of the named field, leaving other fields alone. -/
def Fields.setVal : Fields → String → FieldVal → Fields
  | .nil, _, _ => .nil
  | .cons name v rest, k, w =>
      if name = k then .cons name w rest else .cons name v (rest.setVal k w)

/-- Field lookup on a message. -/
def Msg.getField : Msg → String → Option FieldVal
  | .mk fs, k => fs.findVal k

/-- Field update on a message. -/
def Msg.setField : Msg → String → FieldVal → Msg
  | .mk fs, k, w => .mk (fs.setVal k w)

mutual
/-- The `NestedMask` selection tree: `map[string]NestedMask` in Go.  The Go
code stores leaves as `nil` submaps and tests emptiness with `len`; a nil map
and an empty map behave identically in every operation, so both collapse to
`node nil`. -/
inductive NestedMask where
  | node (entries : MaskEntries)
deriving DecidableEq, Repr

/-- Entries of a `NestedMask`, keyed by field name or map key. -/
inductive MaskEntries where
  | nil
  | cons (key : String) (sub : NestedMask) (rest : MaskEntries)
deriving DecidableEq, Repr
end

/-- `len(mask) == 0` in Go. -/
def NestedMask.isEmpty : NestedMask → Bool
  | .node .nil => true
  | .node (.cons _ _ _) => false

/-- Map lookup `mask[key]` over the entries. -/
def MaskEntries.lookup : MaskEntries → String → Option NestedMask
  | .nil, _ => none
  | .cons key sub rest, k => if key = k then some sub else rest.lookup k

/-- Map lookup `mask[key]`. -/
def NestedMask.lookup : NestedMask → String → Option NestedMask
  | .node es, k => es.lookup k

/-- Map update `mask[key] = sub`: replace in place, or append a new entry. -/
def MaskEntries.setKey : MaskEntries → String → NestedMask → MaskEntries
  | .nil, k, sub => .cons k sub .nil
  | .cons key v rest, k, sub =>
      if key = k then .cons key sub rest else .cons key v (rest.setKey k sub)

/-- Map update `mask[key] = sub`. -/
def NestedMask.setKey : NestedMask → String → NestedMask → NestedMask
  | .node es, k, sub => .node (es.setKey k sub)

/-- `strings.IndexRune(path, '.')`: index of the first dot, if any. -/
def dotIdx? : List Char → Option Nat
  | [] => none
  | c :: rest => if c = '.' then some 0 else (dotIdx? rest).map (· + 1)

/-- The recursive `add` closure of `NestedMaskFromPaths`, with explicit fuel
(one unit per recursion step; `add` consumes at least one character and one
dot per step, so `length + 1` fuel always suffices).  An empty path or an
empty head segment aborts this path with no further effect. -/
def addFuel : Nat → List Char → NestedMask → NestedMask
  | 0, _, mask => mask
  | fuel + 1, path, mask =>
    if path.isEmpty then mask
    else
      match dotIdx? path with
      | none => mask.setKey (String.mk path) (.node .nil)
      | some i =>
        if (path.take i).isEmpty then mask
        else
          mask.setKey (String.mk (path.take i))
            (addFuel fuel (path.drop (i + 1))
              ((mask.lookup (String.mk (path.take i))).getD (.node .nil)))

/-- Process one dotted path into the mask (the `add` closure). -/
def NestedMask.add (path : String) (mask : NestedMask) : NestedMask :=
  addFuel (path.length + 1) path.toList mask

/-- `NestedMaskFromPaths`: compile a list of dotted paths into a mask. -/
def NestedMaskFromPaths (paths : List String) : NestedMask :=
  paths.foldl (fun mask p => mask.add p) (.node .nil)

mutual
/-- `NestedMask.Filter`: keep the fields selected by the mask, clear the rest.
`none` models a Go panic (`Value.Message()` on a scalar-list element). -/
def NestedMask.Filter (mask : NestedMask) : Msg → Option Msg
  | .mk fs =>
    if mask.isEmpty then some (.mk fs)
    else
      match filterFields mask fs with
      | none => none
      | some fs' => some (.mk fs')

/-- Body of `Filter`'s `Range` callback, applied to each field in order. -/
def filterFields (mask : NestedMask) : Fields → Option Fields
  | .nil => some .nil
  | .cons name v rest =>
    match filterField mask name v, filterFields mask rest with
    | some v', some rest' => some (.cons name v' rest')
    | _, _ => none

/-- One field under `Filter`: absent fields are not visited by `Range`;
a field not named in the mask is cleared; a leaf keeps the whole subtree;
a non-leaf node descends into maps, message lists and singular messages. -/
def filterField (mask : NestedMask) (name : String) (v : FieldVal) :
    Option FieldVal :=
  if !v.fvPresent then some v
  else
    match mask.lookup name with
    | none => some v.clearVal
    | some sub =>
      if sub.isEmpty then some v
      else
        match v with
        | .msgMap entries =>
          match filterMsgEntries sub entries with
          | none => none
          | some entries' => some (.msgMap entries')
        | .scalarMap entries =>
          some (.scalarMap (entries.filter (fun e => (sub.lookup e.1).isSome)))
        | .msgList l =>
          match filterMsgList sub l with
          | none => none
          | some l' => some (.msgList l')
        | .scalarList _ => none
        | .msgField p m =>
          match sub.Filter m with
          | none => none
          | some m' => some (.msgField p m')
        | v => some v

/-- `Filter` over a message map: entries whose key is absent from the mask are
removed; a non-leaf child recurses into the entry's message. -/
def filterMsgEntries (sub : NestedMask) : MsgEntries → Option MsgEntries
  | .nil => some .nil
  | .cons k v rest =>
    match sub.lookup k with
    | none => filterMsgEntries sub rest
    | some child =>
      match (if child.isEmpty then some v else child.Filter v),
            filterMsgEntries sub rest with
      | some v', some rest' => some (.cons k v' rest')
      | _, _ => none

/-- `Filter` applied uniformly to every element of a repeated message field. -/
def filterMsgList (sub : NestedMask) : MsgList → Option MsgList
  | .nil => some .nil
  | .cons m rest =>
    match sub.Filter m, filterMsgList sub rest with
    | some m', some rest' => some (.cons m' rest')
    | _, _ => none
end

mutual
/-- `NestedMask.Prune`: clear the fields selected by the mask, keep the rest. -/
def NestedMask.Prune (mask : NestedMask) : Msg → Option Msg
  | .mk fs =>
    if mask.isEmpty then some (.mk fs)
    else
      match pruneFields mask fs with
      | none => none
      | some fs' => some (.mk fs')

/-- Body of `Prune`'s `Range` callback, applied to each field in order. -/
def pruneFields (mask : NestedMask) : Fields → Option Fields
  | .nil => some .nil
  | .cons name v rest =>
    match pruneField mask name v, pruneFields mask rest with
    | some v', some rest' => some (.cons name v' rest')
    | _, _ => none

/-- One field under `Prune`: fields not named in the mask are untouched; a
leaf clears the field; a non-leaf node descends. -/
def pruneField (mask : NestedMask) (name : String) (v : FieldVal) :
    Option FieldVal :=
  if !v.fvPresent then some v
  else
    match mask.lookup name with
    | none => some v
    | some sub =>
      if sub.isEmpty then some v.clearVal
      else
        match v with
        | .msgMap entries =>
          match pruneMsgEntries sub entries with
          | none => none
          | some entries' => some (.msgMap entries')
        | .scalarMap entries =>
          some (.scalarMap (entries.filter (fun e => (sub.lookup e.1).isNone)))
        | .msgList l =>
          match pruneMsgList sub l with
          | none => none
          | some l' => some (.msgList l')
        | .scalarList _ => none
        | .msgField p m =>
          match sub.Prune m with
          | none => none
          | some m' => some (.msgField p m')
        | v => some v

/-- `Prune` over a message map: keys absent from the mask are untouched; a
leaf child removes the whole entry; a non-leaf child recurses. -/
def pruneMsgEntries (sub : NestedMask) : MsgEntries → Option MsgEntries
  | .nil => some .nil
  | .cons k v rest =>
    match sub.lookup k with
    | none =>
      match pruneMsgEntries sub rest with
      | none => none
      | some rest' => some (.cons k v rest')
    | some child =>
      if child.isEmpty then pruneMsgEntries sub rest
      else
        match child.Prune v, pruneMsgEntries sub rest with
        | some v', some rest' => some (.cons k v' rest')
        | _, _ => none

/-- `Prune` applied uniformly to every element of a repeated message field. -/
def pruneMsgList (sub : NestedMask) : MsgList → Option MsgList
  | .nil => some .nil
  | .cons m rest =>
    match sub.Prune m, pruneMsgList sub rest with
    | some m', some rest' => some (.cons m' rest')
    | _, _ => none
end

/-- `Map.Set` on a message map: replace in place or append a new entry. -/
def MsgEntries.setEntry : MsgEntries → String → Msg → MsgEntries
  | .nil, k, v => .cons k v .nil
  | .cons key m rest, k, v =>
    if key = k then .cons key v rest else .cons key m (rest.setEntry k v)

/-- `Map.Clear` on a message map: remove the entry with the given key. -/
def MsgEntries.removeKey : MsgEntries → String → MsgEntries
  | .nil, _ => .nil
  | .cons key m rest, k =>
    if key = k then rest.removeKey k else .cons key m (rest.removeKey k)

/-- `Map.Set` on a scalar map. -/
def scalarMapSet (l : List (String × Scalar)) (k : String) (v : Scalar) :
    List (String × Scalar) :=
  match l with
  | [] => [(k, v)]
  | (key, w) :: rest =>
    if key = k then (key, v) :: rest else (key, w) :: scalarMapSet rest k v

/-- `Map.Clear` on a scalar map. -/
def scalarMapRemove (l : List (String × Scalar)) (k : String) :
    List (String × Scalar) :=
  l.filter (fun e => e.1 ≠ k)

/-- The condition under which `overwrite`'s leaf branch copies `src`'s value
instead of clearing `dest`'s field:
`isValid(srcFD, srcVal) && !srcVal.Equal(srcFD.Default())` in the source.
`isValid` is true for scalars (explicit presence included) and is container
presence for messages, lists and maps; `Value.Equal(fd.Default())` compares a
scalar against its type's zero value (`Get` yields the default for an unset
optional), and is always false for a message, list or map value because
`Default()` is the invalid value for those kinds. -/
def copyCond : FieldVal → Bool
  | .scalar v => !v.isZero
  | .optScalar none => false
  | .optScalar (some v) => !v.isZero
  | .msgField p _ => p
  | .scalarList l => !l.isEmpty
  | .msgList .nil => false
  | .msgList (.cons _ _) => true
  | .scalarMap e => !e.isEmpty
  | .msgMap .nil => false
  | .msgMap (.cons _ _ _) => true

/-- `overwrite` over a scalar map: fold over `src`'s entries; keys named in
the submask are copied whole (the non-message value defeats the type
assertion), unnamed keys are removed from `dest`. -/
def owScalarMap (sub : NestedMask) :
    List (String × Scalar) → List (String × Scalar) → List (String × Scalar)
  | [], acc => acc
  | (k, v) :: rest, acc =>
    if (sub.lookup k).isSome then owScalarMap sub rest (scalarMapSet acc k v)
    else owScalarMap sub rest (scalarMapRemove acc k)

theorem MaskEntries.sizeOf_pos (es : MaskEntries) : 0 < sizeOf es := by
  cases es <;> simp_arith

theorem MaskEntries.lookup_sizeOf (es : MaskEntries) (k : String)
    (sub : NestedMask) (h : es.lookup k = some sub) : sizeOf sub < sizeOf es := by
  match es with
  | .nil => simp [MaskEntries.lookup] at h
  | .cons key v rest =>
    simp only [MaskEntries.lookup] at h
    split at h
    · cases h; simp; omega
    · have := MaskEntries.lookup_sizeOf rest k sub h
      simp
      omega

theorem NestedMask.lookup_size_lt (m : NestedMask) (k : String)
    (sub : NestedMask) (h : m.lookup k = some sub) : sizeOf sub < sizeOf m := by
  cases m with
  | node es =>
    have := MaskEntries.lookup_sizeOf es k sub h
    simp
    omega

mutual
/-- The recursive `NestedMask.overwrite` method: copy the masked parts of
`src` into `dest`.  It iterates over the mask's entries (not over `src`'s
present fields); a mask key that is not a schema field panics (`none`), as
does a `dest` of a different message type. -/
def NestedMask.overwrite (mask : NestedMask) (src dest : Msg) : Option Msg :=
  match mask with
  | .node es => overwriteFields es src dest
termination_by (sizeOf mask, 0)
decreasing_by
  simp_wf
  apply Prod.Lex.left
  omega

/-- Process the mask entries in order, threading the destination message. -/
def overwriteFields (es : MaskEntries) (src dest : Msg) : Option Msg :=
  match es with
  | .nil => some dest
  | .cons name sub rest =>
    match overwriteField name sub src dest with
    | none => none
    | some dest' => overwriteFields rest src dest'
termination_by (sizeOf es, 0)
decreasing_by
  all_goals simp_wf
  all_goals apply Prod.Lex.left
  all_goals try omega
  all_goals rename_i rest
  all_goals have hrpos := MaskEntries.sizeOf_pos rest
  all_goals omega

/-- One mask entry under `overwrite`.  A leaf copies `src`'s field when
`copyCond` holds and clears `dest`'s field otherwise.  A non-leaf node
descends into maps (`IsMap` fields have `MessageKind`, so scalar maps take
the map branch too), message lists, and singular message fields; scalar and
scalar-list fields match no branch and are untouched. -/
def overwriteField (name : String) (sub : NestedMask) (src dest : Msg) :
    Option Msg :=
  match src.getField name with
  | none => none
  | some srcVal =>
    if sub.isEmpty then
      match dest.getField name with
      | none => none
      | some destVal =>
        if copyCond srcVal then some (dest.setField name srcVal)
        else some (dest.setField name destVal.clearVal)
    else
      match srcVal with
      | .msgMap srcEntries =>
        match dest.getField name with
        | some (.msgMap destEntries) =>
          match destEntries with
          | .nil =>
            -- dest's map is invalid: adopt src's map object; if src's map is
            -- also invalid, `Set` with a read-only value panics.
            match srcEntries with
            | .nil => none
            | .cons _ _ _ =>
              match owMsgMap sub srcEntries srcEntries with
              | none => none
              | some newEntries =>
                some (dest.setField name (.msgMap newEntries))
          | .cons _ _ _ =>
            match owMsgMap sub srcEntries destEntries with
            | none => none
            | some newEntries => some (dest.setField name (.msgMap newEntries))
        | _ => none
      | .scalarMap srcEntries =>
        match dest.getField name with
        | some (.scalarMap destEntries) =>
          if destEntries.isEmpty then
            if srcEntries.isEmpty then none
            else
              some (dest.setField name
                (.scalarMap (owScalarMap sub srcEntries srcEntries)))
          else
            some (dest.setField name
              (.scalarMap (owScalarMap sub srcEntries destEntries)))
        | _ => none
      | .msgList srcL =>
        match dest.getField name with
        | some (.msgList destL) =>
          match owMsgList sub srcL destL with
          | none => none
          | some newL => some (dest.setField name (.msgList newL))
        | _ => none
      | .msgField ps sm =>
        match dest.getField name with
        | some (.msgField pd dm) =>
          -- reading an unset singular message yields an invalid (all-default)
          -- message; an unset dest field is first initialized with `New()`.
          match sub.overwrite (if ps then sm else sm.defaultMsg)
              (if pd then dm else dm.defaultMsg) with
          | none => none
          | some inner => some (dest.setField name (.msgField true inner))
        | _ => none
      | _ => some dest
termination_by (sizeOf sub + 1, 0)
decreasing_by
  all_goals simp_wf
  all_goals apply Prod.Lex.left
  all_goals omega

/-- `overwrite` over a message map: fold over `src`'s entries; a key named by
a non-leaf child is rebuilt from a fresh `New()` value and recursively
overwritten, a key named by a leaf child is copied whole, and an unnamed key
is removed from `dest`. -/
def owMsgMap (sub : NestedMask) (srcEntries acc : MsgEntries) :
    Option MsgEntries :=
  match srcEntries with
  | .nil => some acc
  | .cons k v rest =>
    match h : sub.lookup k with
    | none => owMsgMap sub rest (acc.removeKey k)
    | some child =>
      if child.isEmpty then owMsgMap sub rest (acc.setEntry k v)
      else
        match child.overwrite v v.defaultMsg with
        | none => none
        | some v' => owMsgMap sub rest (acc.setEntry k v')
termination_by (sizeOf sub, sizeOf srcEntries)
decreasing_by
  all_goals simp_wf
  all_goals try (apply Prod.Lex.right; omega)
  all_goals apply Prod.Lex.left
  all_goals solve_by_elim [NestedMask.lookup_size_lt]

/-- `overwrite` over a repeated message field: positional pairing.  `dest` is
first truncated to `src`'s length (the `.nil` source case), then element `i`
of `src` is overwritten into the existing `dest` element or into a freshly
appended one. -/
def owMsgList (sub : NestedMask) (srcL destL : MsgList) : Option MsgList :=
  match srcL, destL with
  | .nil, _ => some .nil
  | .cons s ss, .nil =>
    match sub.overwrite s s.defaultMsg with
    | none => none
    | some d' =>
      match owMsgList sub ss .nil with
      | none => none
      | some rest' => some (.cons d' rest')
  | .cons s ss, .cons d ds =>
    match sub.overwrite s d with
    | none => none
    | some d' =>
      match owMsgList sub ss ds with
      | none => none
      | some rest' => some (.cons d' rest')
termination_by (sizeOf sub, sizeOf srcL)
decreasing_by
  all_goals simp_wf
  all_goals apply Prod.Lex.right
  all_goals omega
end

mutual
/-- The mask object graph after `overwrite` runs: the root with each entry's
submask replaced by the state its recursive processing leaves behind.  The
fuel only bounds recursion depth (exhaustion returns the mask state as-is);
the read-only theorem holds for every fuel. -/
def owMaskTrace : Nat → NestedMask → Msg → Msg → NestedMask
  | 0, mask, _, _ => mask
  | fuel + 1, .node es, src, dest => .node (owMaskTraceFields fuel es src dest)

/-- Thread the mask entries through `overwrite`'s loop; a panic aborts the
loop, leaving the remaining entries untouched. -/
def owMaskTraceFields : Nat → MaskEntries → Msg → Msg → MaskEntries
  | 0, es, _, _ => es
  | _ + 1, .nil, _, _ => .nil
  | fuel + 1, .cons name sub rest, src, dest =>
    .cons name (owMaskTraceField fuel name sub src dest)
      (match overwriteField name sub src dest with
       | none => rest
       | some dest' => owMaskTraceFields fuel rest src dest')

/-- The submask state after `overwrite` processes one mask entry. -/
def owMaskTraceField : Nat → String → NestedMask → Msg → Msg → NestedMask
  | 0, _, sub, _, _ => sub
  | fuel + 1, name, sub, src, dest =>
    match src.getField name with
    | none => sub
    | some srcVal =>
      if sub.isEmpty then sub
      else
        match srcVal with
        | .msgMap srcEntries => owMaskTraceMap fuel sub srcEntries
        | .msgList srcL =>
          match dest.getField name with
          | some (.msgList destL) => owMaskTraceList fuel sub srcL destL
          | _ => sub
        | .msgField ps sm =>
          match dest.getField name with
          | some (.msgField pd dm) =>
            owMaskTrace fuel sub (if ps then sm else sm.defaultMsg)
              (if pd then dm else dm.defaultMsg)
          | _ => sub
        | _ => sub

/-- The submask state after `overwrite` folds over a source map's entries;
each named non-leaf child recursively overwrites into a fresh value. -/
def owMaskTraceMap : Nat → NestedMask → MsgEntries → NestedMask
  | 0, sub, _ => sub
  | _ + 1, sub, .nil => sub
  | fuel + 1, sub, .cons k v rest =>
    match sub.lookup k with
    | none => owMaskTraceMap fuel sub rest
    | some child =>
      if child.isEmpty then owMaskTraceMap fuel sub rest
      else
        owMaskTraceMap fuel
          (sub.setKey k (owMaskTrace fuel child v v.defaultMsg)) rest

/-- The submask state after `overwrite` pairs list elements positionally. -/
def owMaskTraceList : Nat → NestedMask → MsgList → MsgList → NestedMask
  | 0, sub, _, _ => sub
  | _ + 1, sub, .nil, _ => sub
  | fuel + 1, sub, .cons s ss, .nil =>
    owMaskTraceList fuel (owMaskTrace fuel sub s s.defaultMsg) ss .nil
  | fuel + 1, sub, .cons s ss, .cons d ds =>
    owMaskTraceList fuel (owMaskTrace fuel sub s d) ss ds
end

/-! Concrete messages modelling the test schema (`testproto`): the round-trip
scenario's `Profile` message and the inputs of the other scenarios. -/

/-- A `User` message with `user_id = 64`, `name = "X"`. -/
def userX : Msg :=
  .mk (.cons "user_id" (.scalar (.int 64))
    (.cons "name" (.scalar (.str "X")) .nil))

/-- A `Dimensions` message with `width = 10`, `height = 20`. -/
def dimensions10x20 : Msg :=
  .mk (.cons "width" (.scalar (.int 10))
    (.cons "height" (.scalar (.int 20)) .nil))

/-- A `Photo` message with `photo_id = 2`, `path = "Y"` and the dimensions. -/
def photoY : Msg :=
  .mk (.cons "photo_id" (.scalar (.int 2))
    (.cons "path" (.scalar (.str "Y"))
    (.cons "dimensions" (.msgField true dimensions10x20) .nil)))

/-- A fully-populated `Profile` message for the round-trip scenario: besides
`user.name`, `photo.path` and the dimensions it has a non-zero `user_id`,
`photo_id`, login timestamps, a gallery element and a map entry, all of which
must be cleared by the filter. -/
def profileMsg : Msg :=
  .mk (.cons "user" (.msgField true userX)
    (.cons "photo" (.msgField true photoY)
    (.cons "login_timestamps" (.scalarList [.int 1, .int 2, .int 3])
    (.cons "gallery" (.msgList (.cons photoY .nil))
    (.cons "attributes"
      (.msgMap (.cons "k"
        (.mk (.cons "tags" (.scalarMap [("a", .str "b")]) .nil)) .nil))
    .nil)))))

/-- The expected result of the round-trip filter: exactly `user.name`,
`photo.path` and `photo.dimensions.width` survive; every other field is at
its cleared value. -/
def profileFiltered : Msg :=
  .mk (.cons "user" (.msgField true
      (.mk (.cons "user_id" (.scalar (.int 0))
        (.cons "name" (.scalar (.str "X")) .nil))))
    (.cons "photo" (.msgField true
      (.mk (.cons "photo_id" (.scalar (.int 0))
        (.cons "path" (.scalar (.str "Y"))
        (.cons "dimensions" (.msgField true
          (.mk (.cons "width" (.scalar (.int 10))
            (.cons "height" (.scalar (.int 0)) .nil)))) .nil)))))
    (.cons "login_timestamps" (.scalarList [])
    (.cons "gallery" (.msgList .nil)
    (.cons "attributes" (.msgMap .nil)
    .nil)))))

/-- Source of the explicit-presence scenario: an `optional int32` field
explicitly set to its zero value. -/
def srcOptZero : Msg := .mk (.cons "optional_int" (.optScalar (some (.int 0))) .nil)

/-- Destination of the explicit-presence scenario: the same optional field
previously holding 5. -/
def destOptFive : Msg := .mk (.cons "optional_int" (.optScalar (some (.int 5))) .nil)

/-- A single-field leaf mask for the optional field. -/
def maskOptLeaf : NestedMask := .node (.cons "optional_int" (.node .nil) .nil)

/-- A one-scalar-field message used by the map and list scenarios. -/
def elemMsg (n : Int) : Msg := .mk (.cons "x" (.scalar (.int n)) .nil)

/-- Map entries `{k1: {x:1}, k2: {x:2}}` for the Prune map scenario. -/
def attrEntries : MsgEntries :=
  .cons "k1" (elemMsg 1) (.cons "k2" (elemMsg 2) .nil)

/-- A message with one map field holding `attrEntries`. -/
def attrMsg : Msg := .mk (.cons "attributes" (.msgMap attrEntries) .nil)

/-- The non-leaf map node naming only `k1`, as a leaf. -/
def attrSub : NestedMask := .node (.cons "k1" (.node .nil) .nil)

/-- The mask `{attributes: {k1}}`. -/
def attrMask : NestedMask := .node (.cons "attributes" attrSub .nil)

/-- Expected Prune result: `k1` removed whole, `k2` untouched. -/
def attrPruned : Msg :=
  .mk (.cons "attributes" (.msgMap (.cons "k2" (elemMsg 2) .nil)) .nil)

/-- Source for the list-overwrite scenario: `gallery = [{x:1},{x:2}]`. -/
def galSrc : Msg :=
  .mk (.cons "gallery" (.msgList (.cons (elemMsg 1) (.cons (elemMsg 2) .nil)))
    .nil)

/-- Destination for the list-overwrite scenario: three prior elements. -/
def galDest : Msg :=
  .mk (.cons "gallery"
    (.msgList (.cons (elemMsg 7) (.cons (elemMsg 8) (.cons (elemMsg 9) .nil))))
    .nil)

/-- The non-leaf child `{x}` applied to every list element. -/
def galSub : NestedMask := .node (.cons "x" (.node .nil) .nil)

/-- Expected result: elements paired by index, the third dropped. -/
def galResult : Msg :=
  .mk (.cons "gallery" (.msgList (.cons (elemMsg 1) (.cons (elemMsg 2) .nil)))
    .nil)

/-- Split a path's characters at every dot: the dot-separated segments, with
empty segments preserved (`"a."` has segments `["a", ""]`, `""` has `[""]`). -/
def segsOf : List Char → List (List Char)
  | [] => [[]]
  | c :: rest =>
    if c = '.' then [] :: segsOf rest
    else
      match segsOf rest with
      | [] => [[c]]
      | s :: ss => (c :: s) :: ss

/-- The dot-separated segments of a path string. -/
def segsOfS (p : String) : List String :=
  (segsOf p.toList).map (fun l => String.mk l)

/-- Whether the chain of keys `ks` exists root-down in the mask. -/
def NestedMask.hasKeys : NestedMask → List String → Bool
  | _, [] => true
  | .node es, k :: ks =>
    match es.lookup k with
    | none => false
    | some sub => sub.hasKeys ks

/-! Mask-state traces.  Each operation holds references into the mask while
it walks a message; Go code could mutate the shared `map[string]NestedMask`
objects through those references.  The trace functions below mirror each
operation's control flow with respect to the mask: every place the Go code
takes a submask reference and recurses, the trace rebuilds the parent with
the submask state the recursive call leaves behind.  Proving a trace equal
to its input mask formalises that the operation never writes to the tree. -/

mutual
/-- The mask object graph after `Filter` runs over a message. -/
def filterMaskAfter (mask : NestedMask) : Msg → NestedMask
  | .mk fs => if mask.isEmpty then mask else filterMaskAfterFields mask fs

/-- Thread the mask state through `Filter`'s Range callback. -/
def filterMaskAfterFields (mask : NestedMask) : Fields → NestedMask
  | .nil => mask
  | .cons name v rest =>
    filterMaskAfterFields (filterMaskAfterField mask name v) rest

/-- The mask state after `Filter` processes one present field. -/
def filterMaskAfterField (mask : NestedMask) (name : String) (v : FieldVal) :
    NestedMask :=
  if !v.fvPresent then mask
  else
    match mask.lookup name with
    | none => mask
    | some sub =>
      if sub.isEmpty then mask
      else
        match v with
        | .msgMap entries => mask.setKey name (filterMaskAfterEntries sub entries)
        | .msgList l => mask.setKey name (filterMaskAfterList sub l)
        | .msgField _ m => mask.setKey name (filterMaskAfter sub m)
        | _ => mask

/-- The submask state after `Filter` visits a message map's entries. -/
def filterMaskAfterEntries (sub : NestedMask) : MsgEntries → NestedMask
  | .nil => sub
  | .cons k v rest =>
    match sub.lookup k with
    | none => filterMaskAfterEntries sub rest
    | some child =>
      if child.isEmpty then filterMaskAfterEntries sub rest
      else filterMaskAfterEntries (sub.setKey k (filterMaskAfter child v)) rest

/-- The submask state after `Filter` visits every list element with it. -/
def filterMaskAfterList (sub : NestedMask) : MsgList → NestedMask
  | .nil => sub
  | .cons m rest => filterMaskAfterList (filterMaskAfter sub m) rest
end

mutual
/-- The mask object graph after `Prune` runs over a message. -/
def pruneMaskAfter (mask : NestedMask) : Msg → NestedMask
  | .mk fs => if mask.isEmpty then mask else pruneMaskAfterFields mask fs

/-- Thread the mask state through `Prune`'s Range callback. -/
def pruneMaskAfterFields (mask : NestedMask) : Fields → NestedMask
  | .nil => mask
  | .cons name v rest =>
    pruneMaskAfterFields (pruneMaskAfterField mask name v) rest

/-- The mask state after `Prune` processes one present field. -/
def pruneMaskAfterField (mask : NestedMask) (name : String) (v : FieldVal) :
    NestedMask :=
  if !v.fvPresent then mask
  else
    match mask.lookup name with
    | none => mask
    | some sub =>
      if sub.isEmpty then mask
      else
        match v with
        | .msgMap entries => mask.setKey name (pruneMaskAfterEntries sub entries)
        | .msgList l => mask.setKey name (pruneMaskAfterList sub l)
        | .msgField _ m => mask.setKey name (pruneMaskAfter sub m)
        | _ => mask

/-- The submask state after `Prune` visits a message map's entries. -/
def pruneMaskAfterEntries (sub : NestedMask) : MsgEntries → NestedMask
  | .nil => sub
  | .cons k v rest =>
    match sub.lookup k with
    | none => pruneMaskAfterEntries sub rest
    | some child =>
      if child.isEmpty then pruneMaskAfterEntries sub rest
      else pruneMaskAfterEntries (sub.setKey k (pruneMaskAfter child v)) rest

/-- The submask state after `Prune` visits every list element with it. -/
def pruneMaskAfterList (sub : NestedMask) : MsgList → NestedMask
  | .nil => sub
  | .cons m rest => pruneMaskAfterList (pruneMaskAfter sub m) rest
end

/-- The keys of a mask's entries, in order. -/
def MaskEntries.keys : MaskEntries → List String
  | .nil => []
  | .cons key _ rest => key :: rest.keys

/-- Look up a map entry by key (first match). -/
def MsgEntries.lookupKey : MsgEntries → String → Option Msg
  | .nil, _ => none
  | .cons key v rest, k => if key = k then some v else rest.lookupKey k

/-- Length of a repeated message field (`List.Len`). -/
def MsgList.len : MsgList → Nat
  | .nil => 0
  | .cons _ rest => rest.len + 1

/-- Index into a repeated message field (`List.Get`), `none` out of range. -/
def MsgList.nth : MsgList → Nat → Option Msg
  | .nil, _ => none
  | .cons m _, 0 => some m
  | .cons _ rest, i + 1 => rest.nth i

/-- Modelled from the spec: the repository's `PathsFromFieldNumbers`
implementation is not under src/ (only its tests and callers are).  Per §4.6,
for each requested number the resolver looks up the declared field name at
that tag on the message's schema (modelled as a tag-to-name association
list), numbers with no corresponding field contribute nothing, and input
order and duplicates are preserved. -/
def PathsFromFieldNumbers (schema : List (Nat × String))
    (numbers : List Nat) : List String :=
  numbers.filterMap (fun n => (schema.find? (fun e => e.1 = n)).map (fun e => e.2))

/-! Generic lemmas about field lookup and update. -/

theorem Fields.findVal_setVal_ne (fs : Fields) (nm f : String) (w : FieldVal)
    (hne : nm ≠ f) : (fs.setVal nm w).findVal f = fs.findVal f := by
  match fs with
  | .nil => rfl
  | .cons name v rest =>
    simp only [Fields.setVal]
    by_cases hn : name = nm
    · subst hn
      simp [Fields.findVal, hne]
    · simp only [hn, if_false]
      simp only [Fields.findVal]
      by_cases hf : name = f
      · simp [hf]
      · simp [hf, Fields.findVal_setVal_ne rest nm f w hne]

theorem Fields.findVal_setVal_eq (fs : Fields) (f : String) (v w : FieldVal)
    (h : fs.findVal f = some v) : (fs.setVal f w).findVal f = some w := by
  match fs with
  | .nil => simp [Fields.findVal] at h
  | .cons name v' rest =>
    simp only [Fields.findVal, Fields.setVal] at h ⊢
    by_cases hf : name = f
    · subst hf
      simp [Fields.findVal]
    · simp only [hf, if_false] at h ⊢
      simp only [Fields.findVal, hf, if_false]
      exact Fields.findVal_setVal_eq rest f v w h

theorem Msg.getField_setField_ne (m : Msg) (nm f : String) (w : FieldVal)
    (hne : nm ≠ f) : (m.setField nm w).getField f = m.getField f := by
  cases m with
  | mk fs => exact Fields.findVal_setVal_ne fs nm f w hne

theorem Msg.getField_setField_eq (m : Msg) (f : String) (v w : FieldVal)
    (h : m.getField f = some v) : (m.setField f w).getField f = some w := by
  cases m with
  | mk fs => exact Fields.findVal_setVal_eq fs f v w h

/-- Every outcome of `overwriteField` is either `dest` itself or a single
update of the named field. -/
theorem overwriteField_shape (name : String) (sub : NestedMask) (src dest d' : Msg)
    (h : overwriteField name sub src dest = some d') :
    d' = dest ∨ ∃ w, d' = dest.setField name w := by
  unfold overwriteField at h
  repeat' split at h
  all_goals try exact Option.noConfusion h
  all_goals injection h with h
  all_goals subst h
  all_goals first
    | exact Or.inl rfl
    | exact Or.inr ⟨_, rfl⟩

/-- The round-trip scenario.  Filtering the fully-populated profile with the
tree compiled from `["user.name", "photo.path", "photo.dimensions.width"]`
keeps exactly `user.name = "X"`, `photo.path = "Y"` and
`photo.dimensions.width = 10`, clears `height`, and clears every other root
field. -/
theorem claim_C1_round_trip :
    (NestedMaskFromPaths
        ["user.name", "photo.path", "photo.dimensions.width"]).Filter
      profileMsg = some profileFiltered := by decide

/-- Filter and Prune with an empty selection tree are no-ops on any
message. -/
theorem claim_C7_empty_mask_identity (m : Msg) :
    (NestedMask.node .nil).Filter m = some m ∧
    (NestedMask.node .nil).Prune m = some m := by
  cases m with
  | mk fs =>
    constructor
    · simp [NestedMask.Filter, NestedMask.isEmpty]
    · simp [NestedMask.Prune, NestedMask.isEmpty]

/-- Overwrite with an empty selection tree is a no-op: the destination is
returned unchanged (and the source, an unmodified input of the pure
embedding, is untouched as well). -/
theorem claim_C10_empty_mask_overwrite (src dest : Msg) :
    (NestedMask.node .nil).overwrite src dest = some dest := by
  simp [NestedMask.overwrite, overwriteFields]

theorem overwriteField_getField_ne (name : String) (sub : NestedMask)
    (src dest d' : Msg) (f : String) (h : overwriteField name sub src dest = some d')
    (hne : name ≠ f) : d'.getField f = dest.getField f := by
  rcases overwriteField_shape name sub src dest d' h with rfl | ⟨w, rfl⟩
  · rfl
  · exact Msg.getField_setField_ne dest name f w hne

theorem overwriteFields_getField_ne (es : MaskEntries) (src : Msg) :
    ∀ (dest d' : Msg) (f : String), f ∉ es.keys →
      overwriteFields es src dest = some d' → d'.getField f = dest.getField f := by
  match es with
  | .nil =>
    intro dest d' f _ h
    unfold overwriteFields at h
    injection h with h
    subst h
    rfl
  | .cons name sub rest =>
    intro dest d' f hf h
    unfold overwriteFields at h
    simp only [MaskEntries.keys, List.mem_cons, not_or] at hf
    split at h
    · exact Option.noConfusion h
    · rename_i dest1 heq
      have h1 := overwriteField_getField_ne name sub src dest dest1 f heq
        (fun hc => hf.1 hc.symm)
      have h2 := overwriteFields_getField_ne rest src dest1 d' f hf.2 h
      rw [h2, h1]

theorem overwriteField_leaf (f : String) (src dest : Msg) (sv dv : FieldVal)
    (hs : src.getField f = some sv) (hd : dest.getField f = some dv) :
    overwriteField f (.node .nil) src dest =
      some (dest.setField f (if copyCond sv then sv else dv.clearVal)) := by
  unfold overwriteField
  rw [hs, hd]
  simp only [NestedMask.isEmpty, if_true]
  split <;> simp_all

theorem overwriteFields_leaf_sem (es : MaskEntries) (f : String) (src : Msg) :
    ∀ (dest d' : Msg) (sv dv : FieldVal), es.keys.Nodup →
      es.lookup f = some (.node .nil) →
      src.getField f = some sv → dest.getField f = some dv →
      overwriteFields es src dest = some d' →
      d'.getField f = some (if copyCond sv then sv else dv.clearVal) := by
  match es with
  | .nil =>
    intro dest d' sv dv _ hleaf _ _ _
    simp [MaskEntries.lookup] at hleaf
  | .cons name sub rest =>
    intro dest d' sv dv hnd hleaf hs hd hrun
    unfold overwriteFields at hrun
    split at hrun
    · exact Option.noConfusion hrun
    · rename_i dest1 heq
      simp only [MaskEntries.keys, List.nodup_cons] at hnd
      simp only [MaskEntries.lookup] at hleaf
      by_cases hnf : name = f
      · subst hnf
        simp only [if_pos rfl] at hleaf
        injection hleaf with hleaf
        subst hleaf
        rw [overwriteField_leaf name src dest sv dv hs hd] at heq
        injection heq with heq
        subst heq
        have hkeep := overwriteFields_getField_ne rest src _ d' name hnd.1 hrun
        rw [hkeep]
        exact Msg.getField_setField_eq dest name dv _ hd
      · simp only [if_neg hnf] at hleaf
        have h1 := overwriteField_getField_ne name sub src dest dest1 f heq hnf
        exact overwriteFields_leaf_sem rest f src dest1 d' sv dv hnd.2 hleaf hs
          (h1 ▸ hd) hrun

/-- C2, counterexample to the claim as stated.  `optional_int` is explicitly
set to its zero value in `src`; the claim says an explicitly-set optional
field "still counts as present and is copied", i.e. `dest`'s field should end
as explicitly-set 0, but `overwrite` clears it to unset instead. -/
theorem claim_C2_counterexample :
    maskOptLeaf.overwrite srcOptZero destOptFive =
      some (.mk (.cons "optional_int" (.optScalar none) .nil)) ∧
    maskOptLeaf.overwrite srcOptZero destOptFive ≠
      some (.mk (.cons "optional_int" (.optScalar (some (.int 0))) .nil)) := by
  have h : maskOptLeaf.overwrite srcOptZero destOptFive =
      some (.mk (.cons "optional_int" (.optScalar none) .nil)) := by
    simp [maskOptLeaf, srcOptZero, destOptFive, NestedMask.overwrite,
      overwriteFields, overwriteField, Msg.getField, Fields.findVal,
      NestedMask.isEmpty, copyCond, Scalar.isZero, Msg.setField, Fields.setVal,
      FieldVal.clearVal]
  exact ⟨h, by rw [h]; decide⟩

/-- C2, amended.  For every src and dest and every leaf mask entry naming
field `f` (a mask whose keys are distinct, as any compiled path set
produces): Overwrite sets dest's `f` to src's value of `f` when `copyCond`
holds of it — implicit-presence scalars and explicit-presence (optional)
scalars alike are judged by the value differing from the zero value, so an
optional field explicitly set to its zero value is treated as absent; for
messages, lists and maps presence of the container decides — and
otherwise clears dest's `f`, even if dest previously held a non-zero
value. -/
theorem claim_C2_amended_overwrite_leaf (es : MaskEntries) (f : String)
    (src dest d' : Msg) (sv dv : FieldVal) (hnd : es.keys.Nodup)
    (hleaf : es.lookup f = some (.node .nil))
    (hs : src.getField f = some sv) (hd : dest.getField f = some dv)
    (hrun : (NestedMask.node es).overwrite src dest = some d') :
    d'.getField f = some (if copyCond sv then sv else dv.clearVal) := by
  unfold NestedMask.overwrite at hrun
  exact overwriteFields_leaf_sem es f src dest d' sv dv hnd hleaf hs hd hrun

/-- Witness for C2's amended theorem at the concrete optional-int inputs. -/
theorem claim_C2_amended_witness :
    (Msg.mk (.cons "optional_int" (.optScalar none) .nil)).getField
        "optional_int" =
      some (if copyCond (.optScalar (some (.int 0)))
        then FieldVal.optScalar (some (.int 0))
        else (FieldVal.optScalar (some (.int 5))).clearVal) :=
  claim_C2_amended_overwrite_leaf
    (.cons "optional_int" (.node .nil) .nil) "optional_int"
    srcOptZero destOptFive
    (.mk (.cons "optional_int" (.optScalar none) .nil))
    (.optScalar (some (.int 0))) (.optScalar (some (.int 5)))
    (by decide) (by decide) (by decide) (by decide)
    (by simp [srcOptZero, destOptFive, NestedMask.overwrite,
      overwriteFields, overwriteField, Msg.getField, Fields.findVal,
      NestedMask.isEmpty, copyCond, Scalar.isZero, Msg.setField, Fields.setVal,
      FieldVal.clearVal])

theorem pruneFields_findVal (mask : NestedMask) (fs : Fields) :
    ∀ (fs' : Fields) (f : String) (v : FieldVal),
      pruneFields mask fs = some fs' → fs.findVal f = some v →
      ∃ v', pruneField mask f v = some v' ∧ fs'.findVal f = some v' := by
  match fs with
  | .nil => intro fs' f v _ hv; simp [Fields.findVal] at hv
  | .cons name w rest =>
    intro fs' f v hp hv
    unfold pruneFields at hp
    split at hp
    · rename_i w' rest' heq1 heq2
      injection hp with hp
      subst hp
      simp only [Fields.findVal] at hv ⊢
      by_cases hnf : name = f
      · subst hnf
        simp only [if_pos rfl] at hv ⊢
        injection hv with hv
        subst hv
        exact ⟨w', heq1, rfl⟩
      · simp only [if_neg hnf] at hv ⊢
        exact pruneFields_findVal mask rest rest' f v heq2 hv
    · exact Option.noConfusion hp

theorem pruneMsgEntries_char (sub : NestedMask) (entries : MsgEntries) :
    ∀ (entries' : MsgEntries), pruneMsgEntries sub entries = some entries' →
      (∀ k, sub.lookup k = none →
        entries'.lookupKey k = entries.lookupKey k) ∧
      (∀ k child, sub.lookup k = some child → child.isEmpty = true →
        entries'.lookupKey k = none) ∧
      (∀ k child v, sub.lookup k = some child → child.isEmpty = false →
        entries.lookupKey k = some v →
        ∃ v', child.Prune v = some v' ∧ entries'.lookupKey k = some v') := by
  match entries with
  | .nil =>
    intro entries' h
    unfold pruneMsgEntries at h
    injection h with h
    subst h
    refine ⟨fun k _ => rfl, fun k child _ _ => rfl, fun k child v _ _ hv => ?_⟩
    simp [MsgEntries.lookupKey] at hv
  | .cons k0 v0 rest =>
    intro entries' h
    unfold pruneMsgEntries at h
    split at h
    · rename_i hk0
      -- key not named in the mask: entry kept untouched
      split at h
      · exact Option.noConfusion h
      · rename_i rest' hrest
        injection h with h
        subst h
        obtain ⟨iha, ihb, ihc⟩ := pruneMsgEntries_char sub rest rest' hrest
        refine ⟨fun k hk => ?_, fun k child hk hce => ?_,
          fun k child v hk hcne hv => ?_⟩
        · simp only [MsgEntries.lookupKey]
          by_cases hkk : k0 = k
          · simp [hkk]
          · simp only [if_neg hkk]
            exact iha k hk
        · have hkk : k0 ≠ k := by
            intro hc
            subst hc
            rw [hk] at hk0
            exact Option.noConfusion hk0
          simp only [MsgEntries.lookupKey, if_neg hkk]
          exact ihb k child hk hce
        · have hkk : k0 ≠ k := by
            intro hc
            subst hc
            rw [hk] at hk0
            exact Option.noConfusion hk0
          simp only [MsgEntries.lookupKey, if_neg hkk] at hv ⊢
          exact ihc k child v hk hcne hv
    · rename_i child0 hk0
      split at h
      · rename_i hc0e
        -- leaf child: whole entry removed
        obtain ⟨iha, ihb, ihc⟩ := pruneMsgEntries_char sub rest entries' h
        refine ⟨fun k hk => ?_, fun k child hk hce => ?_,
          fun k child v hk hcne hv => ?_⟩
        · have hkk : k0 ≠ k := by
            intro hc
            subst hc
            rw [hk] at hk0
            exact Option.noConfusion hk0
          simp only [MsgEntries.lookupKey, if_neg hkk]
          exact iha k hk
        · exact ihb k child hk hce
        · have hkk : k0 ≠ k := by
            intro hc
            subst hc
            rw [hk] at hk0
            injection hk0 with hk0
            rw [← hk0] at hc0e
            rw [hc0e] at hcne
            exact Bool.noConfusion hcne
          simp only [MsgEntries.lookupKey, if_neg hkk] at hv
          exact ihc k child v hk hcne hv
      · rename_i hc0ne
        -- non-leaf child: recursively prune the entry's message
        split at h
        · rename_i v0' rest' hv0 hrest
          injection h with h
          subst h
          obtain ⟨iha, ihb, ihc⟩ := pruneMsgEntries_char sub rest rest' hrest
          refine ⟨fun k hk => ?_, fun k child hk hce => ?_,
            fun k child v hk hcne hv => ?_⟩
          · have hkk : k0 ≠ k := by
              intro hc
              subst hc
              rw [hk] at hk0
              exact Option.noConfusion hk0
            simp only [MsgEntries.lookupKey, if_neg hkk]
            exact iha k hk
          · have hkk : k0 ≠ k := by
              intro hc
              subst hc
              rw [hk] at hk0
              injection hk0 with hk0
              rw [hk0] at hce
              exact hc0ne hce
            simp only [MsgEntries.lookupKey, if_neg hkk]
            exact ihb k child hk hce
          · simp only [MsgEntries.lookupKey] at hv ⊢
            by_cases hkk : k0 = k
            · subst hkk
              rw [hk] at hk0
              injection hk0 with hk0
              subst hk0
              simp only [if_pos rfl] at hv ⊢
              injection hv with hv
              subst hv
              exact ⟨v0', hv0, rfl⟩
            · simp only [if_neg hkk] at hv ⊢
              exact ihc k child v hk hcne hv
        · exact Option.noConfusion h

theorem pruneField_msgMap (mask : NestedMask) (f : String) (sub : NestedMask)
    (entries : MsgEntries) (v' : FieldVal) (hsub : mask.lookup f = some sub)
    (hne : sub.isEmpty = false) (h : pruneField mask f (.msgMap entries) = some v') :
    ∃ entries', v' = .msgMap entries' ∧
      pruneMsgEntries sub entries = some entries' := by
  match entries with
  | .nil =>
    unfold pruneField at h
    simp only [FieldVal.fvPresent, Bool.not_false, if_pos] at h
    injection h with h
    exact ⟨.nil, h.symm, rfl⟩
  | .cons k0 v0 rest =>
    unfold pruneField at h
    simp only [FieldVal.fvPresent, Bool.not_true, Bool.false_eq_true, if_false,
      hsub, hne] at h
    split at h
    · exact Option.noConfusion h
    · rename_i entries' hentries
      injection h with h
      exact ⟨entries', h.symm, hentries⟩

theorem pruneField_scalarMap (mask : NestedMask) (f : String) (sub : NestedMask)
    (l : List (String × Scalar)) (v' : FieldVal) (hsub : mask.lookup f = some sub)
    (hne : sub.isEmpty = false) (h : pruneField mask f (.scalarMap l) = some v') :
    v' = .scalarMap (l.filter (fun e => (sub.lookup e.1).isNone)) := by
  match l with
  | [] =>
    unfold pruneField at h
    simp only [FieldVal.fvPresent, List.isEmpty_nil, Bool.not_true,
      Bool.not_false, if_pos] at h
    injection h with h
    simp [← h]
  | e0 :: rest =>
    unfold pruneField at h
    simp only [FieldVal.fvPresent, List.isEmpty_cons, Bool.not_false,
      Bool.false_eq_true, if_false, hsub, hne] at h
    injection h with h
    exact h.symm

theorem NestedMask.isEmpty_lookup (mask : NestedMask) (f : String)
    (h : mask.isEmpty = true) : mask.lookup f = none := by
  match mask with
  | .node .nil => rfl
  | .node (.cons _ _ _) => exact Bool.noConfusion h

/-- C4: Prune on a present map field visits only the keys named in the
non-leaf node `sub`: a key whose child is a leaf is removed whole, a key
whose child is non-leaf has its message value recursively pruned, a key whose
value is not a message (scalar map) is removed whole when named, and every
key not present in `sub` is left untouched. -/
theorem claim_C4_prune_map_keys (mask sub : NestedMask) (f : String) (m m' : Msg) :
    (∀ entries : MsgEntries, m.getField f = some (.msgMap entries) →
      mask.lookup f = some sub → sub.isEmpty = false →
      mask.Prune m = some m' →
      ∃ entries', m'.getField f = some (.msgMap entries') ∧
        (∀ k, sub.lookup k = none →
          entries'.lookupKey k = entries.lookupKey k) ∧
        (∀ k child, sub.lookup k = some child → child.isEmpty = true →
          entries'.lookupKey k = none) ∧
        (∀ k child v, sub.lookup k = some child → child.isEmpty = false →
          entries.lookupKey k = some v →
          ∃ v', child.Prune v = some v' ∧ entries'.lookupKey k = some v')) ∧
    (∀ l : List (String × Scalar), m.getField f = some (.scalarMap l) →
      mask.lookup f = some sub → sub.isEmpty = false →
      mask.Prune m = some m' →
      m'.getField f =
        some (.scalarMap (l.filter (fun e => (sub.lookup e.1).isNone)))) := by
  constructor
  · intro entries hv hsub hne hrun
    match m with
    | .mk fs =>
      unfold NestedMask.Prune at hrun
      split at hrun
      · rename_i hme
        rw [NestedMask.isEmpty_lookup mask f hme] at hsub
        exact Option.noConfusion hsub
      · split at hrun
        · exact Option.noConfusion hrun
        · rename_i fs' hfs
          injection hrun with hrun
          subst hrun
          obtain ⟨v', hpf, hfind⟩ := pruneFields_findVal mask fs fs' f _ hfs hv
          obtain ⟨entries', hv', hpe⟩ :=
            pruneField_msgMap mask f sub entries v' hsub hne hpf
          subst hv'
          obtain ⟨ha, hb, hc⟩ := pruneMsgEntries_char sub entries entries' hpe
          exact ⟨entries', hfind, ha, hb, hc⟩
  · intro l hv hsub hne hrun
    match m with
    | .mk fs =>
      unfold NestedMask.Prune at hrun
      split at hrun
      · rename_i hme
        rw [NestedMask.isEmpty_lookup mask f hme] at hsub
        exact Option.noConfusion hsub
      · split at hrun
        · exact Option.noConfusion hrun
        · rename_i fs' hfs
          injection hrun with hrun
          subst hrun
          obtain ⟨v', hpf, hfind⟩ := pruneFields_findVal mask fs fs' f _ hfs hv
          rw [pruneField_scalarMap mask f sub l v' hsub hne hpf] at hfind
          exact hfind

/-- Witness for C4 at a concrete two-entry map: `k1` (named, leaf child) is
removed, `k2` (unnamed) is untouched. -/
theorem claim_C4_witness :
    ∃ entries', attrPruned.getField "attributes" = some (.msgMap entries') ∧
      (∀ k, attrSub.lookup k = none →
        entries'.lookupKey k = attrEntries.lookupKey k) ∧
      (∀ k child, attrSub.lookup k = some child → child.isEmpty = true →
        entries'.lookupKey k = none) ∧
      (∀ k child v, attrSub.lookup k = some child → child.isEmpty = false →
        attrEntries.lookupKey k = some v →
        ∃ v', child.Prune v = some v' ∧ entries'.lookupKey k = some v') :=
  (claim_C4_prune_map_keys attrMask attrSub "attributes" attrMsg attrPruned).1
    attrEntries (by decide) (by decide) (by decide) (by decide)

theorem overwriteFields_through (es : MaskEntries) (src : Msg) :
    ∀ (dest d' : Msg) (f : String) (sub : NestedMask), es.keys.Nodup →
      es.lookup f = some sub → overwriteFields es src dest = some d' →
      ∃ dest1 dest2, dest1.getField f = dest.getField f ∧
        overwriteField f sub src dest1 = some dest2 ∧
        d'.getField f = dest2.getField f := by
  match es with
  | .nil => intro dest d' f sub _ hlk _; simp [MaskEntries.lookup] at hlk
  | .cons name sub0 rest =>
    intro dest d' f sub hnd hlk hrun
    unfold overwriteFields at hrun
    split at hrun
    · exact Option.noConfusion hrun
    · rename_i dest1 heq
      simp only [MaskEntries.keys, List.nodup_cons] at hnd
      simp only [MaskEntries.lookup] at hlk
      by_cases hnf : name = f
      · subst hnf
        rw [if_pos rfl] at hlk
        injection hlk with hlk
        subst hlk
        refine ⟨dest, dest1, rfl, heq, ?_⟩
        exact overwriteFields_getField_ne rest src dest1 d' name hnd.1 hrun
      · rw [if_neg hnf] at hlk
        obtain ⟨dest1', dest2', hpre, hmid, hpost⟩ :=
          overwriteFields_through rest src dest1 d' f sub hnd.2 hlk hrun
        have h1 := overwriteField_getField_ne name sub0 src dest dest1 f heq hnf
        exact ⟨dest1', dest2', by rw [hpre, h1], hmid, hpost⟩

theorem owMsgList_char (sub : NestedMask) (srcL destL : MsgList) :
    ∀ (newL : MsgList), owMsgList sub srcL destL = some newL →
      newL.len = srcL.len ∧
      (∀ i s, srcL.nth i = some s →
        ∃ d e, newL.nth i = some e ∧ sub.overwrite s d = some e ∧
          (destL.nth i = some d ∨ (destL.nth i = none ∧ d = s.defaultMsg))) := by
  match srcL, destL with
  | .nil, destL =>
    intro newL h
    unfold owMsgList at h
    injection h with h
    subst h
    exact ⟨rfl, fun i s hs => by simp [MsgList.nth] at hs⟩
  | .cons s ss, .nil =>
    intro newL h
    unfold owMsgList at h
    split at h
    · exact Option.noConfusion h
    · rename_i d' hd'
      split at h
      · exact Option.noConfusion h
      · rename_i rest' hrest
        injection h with h
        subst h
        obtain ⟨hlen, hidx⟩ := owMsgList_char sub ss .nil rest' hrest
        refine ⟨by simp [MsgList.len, hlen], fun i s0 hs0 => ?_⟩
        match i with
        | 0 =>
          simp only [MsgList.nth] at hs0
          injection hs0 with hs0
          subst hs0
          exact ⟨s.defaultMsg, d', rfl, hd', Or.inr ⟨rfl, rfl⟩⟩
        | i + 1 =>
          simp only [MsgList.nth] at hs0
          obtain ⟨d0, e0, hn, ho, hor⟩ := hidx i s0 hs0
          exact ⟨d0, e0, by simpa [MsgList.nth] using hn, ho,
            by simpa [MsgList.nth] using hor⟩
  | .cons s ss, .cons d ds =>
    intro newL h
    unfold owMsgList at h
    split at h
    · exact Option.noConfusion h
    · rename_i d' hd'
      split at h
      · exact Option.noConfusion h
      · rename_i rest' hrest
        injection h with h
        subst h
        obtain ⟨hlen, hidx⟩ := owMsgList_char sub ss ds rest' hrest
        refine ⟨by simp [MsgList.len, hlen], fun i s0 hs0 => ?_⟩
        match i with
        | 0 =>
          simp only [MsgList.nth] at hs0
          injection hs0 with hs0
          subst hs0
          exact ⟨d, d', rfl, hd', Or.inl rfl⟩
        | i + 1 =>
          simp only [MsgList.nth] at hs0
          obtain ⟨d0, e0, hn, ho, hor⟩ := hidx i s0 hs0
          exact ⟨d0, e0, by simpa [MsgList.nth] using hn, ho,
            by simpa [MsgList.nth] using hor⟩

/-- C5: Overwrite on a repeated-message field with a non-leaf node pairs
elements positionally: the result list has `src`'s length (destination
elements beyond it are dropped, i.e. `dest` is truncated), and element `i` is
the recursive overwrite of `src[i]` into `dest[i]` when it exists, or into a
freshly appended default element otherwise. -/
theorem claim_C5_overwrite_list_positional (es : MaskEntries) (sub : NestedMask)
    (f : String) (src dest d' : Msg) (srcL destL : MsgList)
    (hnd : es.keys.Nodup) (hlk : es.lookup f = some sub)
    (hne : sub.isEmpty = false)
    (hs : src.getField f = some (.msgList srcL))
    (hd : dest.getField f = some (.msgList destL))
    (hrun : (NestedMask.node es).overwrite src dest = some d') :
    ∃ newL, d'.getField f = some (.msgList newL) ∧ newL.len = srcL.len ∧
      (∀ i s, srcL.nth i = some s →
        ∃ dEl e, newL.nth i = some e ∧ sub.overwrite s dEl = some e ∧
          (destL.nth i = some dEl ∨
            (destL.nth i = none ∧ dEl = s.defaultMsg))) := by
  unfold NestedMask.overwrite at hrun
  obtain ⟨dest1, dest2, hpre, hmid, hpost⟩ :=
    overwriteFields_through es src dest d' f sub hnd hlk hrun
  rw [hd] at hpre
  unfold overwriteField at hmid
  rw [hs] at hmid
  simp only [hne, Bool.false_eq_true, if_false] at hmid
  rw [hpre] at hmid
  split at hmid
  · rename_i destL1 heq
    injection heq with heq
    injection heq with heq
    subst heq
    split at hmid
    · exact Option.noConfusion hmid
    · rename_i newL hnewL
      injection hmid with hmid
      subst hmid
      obtain ⟨hlen, hidx⟩ := owMsgList_char sub srcL destL newL hnewL
      refine ⟨newL, ?_, hlen, hidx⟩
      rw [hpost]
      exact Msg.getField_setField_eq dest1 f _ _ hpre
  · rename_i hno
    exact (hno destL rfl).elim

/-- Witness for C5 at a concrete two-into-three list overwrite. -/
theorem claim_C5_witness :
    ∃ newL, galResult.getField "gallery" = some (.msgList newL) ∧
      MsgList.len newL =
        MsgList.len (.cons (elemMsg 1) (.cons (elemMsg 2) .nil)) ∧
      (∀ i s, MsgList.nth (.cons (elemMsg 1) (.cons (elemMsg 2) .nil)) i
          = some s →
        ∃ dEl e, newL.nth i = some e ∧ galSub.overwrite s dEl = some e ∧
          (MsgList.nth
              (.cons (elemMsg 7) (.cons (elemMsg 8) (.cons (elemMsg 9) .nil)))
              i = some dEl ∨
            (MsgList.nth
              (.cons (elemMsg 7) (.cons (elemMsg 8) (.cons (elemMsg 9) .nil)))
              i = none ∧ dEl = s.defaultMsg))) :=
  claim_C5_overwrite_list_positional
    (.cons "gallery" galSub .nil) galSub "gallery" galSrc galDest galResult
    (.cons (elemMsg 1) (.cons (elemMsg 2) .nil))
    (.cons (elemMsg 7) (.cons (elemMsg 8) (.cons (elemMsg 9) .nil)))
    (by decide) (by decide) (by decide) (by decide) (by decide)
    (by simp [galSrc, galDest, galResult, galSub, elemMsg,
      NestedMask.overwrite, overwriteFields, overwriteField, owMsgList,
      Msg.getField, Fields.findVal, NestedMask.isEmpty, copyCond,
      Scalar.isZero, Msg.setField, Fields.setVal, FieldVal.clearVal,
      Msg.defaultMsg, Fields.clearFields, Scalar.zeroOf])

/-! Lemmas for the path-compiler invariant. -/

theorem segsOf_eq_of_none (cs : List Char) (h : dotIdx? cs = none) :
    segsOf cs = [cs] := by
  induction cs with
  | nil => rfl
  | cons c rest ih =>
    simp only [dotIdx?] at h
    split at h
    · exact Option.noConfusion h
    · rename_i hc
      simp only [Option.map_eq_none'] at h
      rw [segsOf, if_neg hc, ih h]

theorem segsOf_split (cs : List Char) :
    ∀ i, dotIdx? cs = some i →
      segsOf cs = cs.take i :: segsOf (cs.drop (i + 1)) := by
  induction cs with
  | nil => intro i h; exact Option.noConfusion h
  | cons c rest ih =>
    intro i h
    simp only [dotIdx?] at h
    split at h
    · rename_i hc
      injection h with h
      subst h
      simp only [List.take_zero, List.drop_succ_cons, List.drop_zero]
      rw [segsOf, if_pos hc]
    · rename_i hc
      simp only [Option.map_eq_some'] at h
      obtain ⟨j, hj, hij⟩ := h
      subst hij
      have := ih j hj
      rw [segsOf, if_neg hc, this]
      simp [List.take_succ_cons, List.drop_succ_cons]

theorem MaskEntries.lookup_setKey_self (es : MaskEntries) (k : String)
    (sub : NestedMask) : (es.setKey k sub).lookup k = some sub := by
  match es with
  | .nil => simp [MaskEntries.setKey, MaskEntries.lookup]
  | .cons key v rest =>
    simp only [MaskEntries.setKey]
    by_cases hk : key = k
    · simp [MaskEntries.lookup, hk]
    · simp only [if_neg hk, MaskEntries.lookup, hk, if_false]
      exact MaskEntries.lookup_setKey_self rest k sub

theorem MaskEntries.lookup_setKey_other (es : MaskEntries) (k k' : String)
    (sub : NestedMask) (hne : k' ≠ k) :
    (es.setKey k sub).lookup k' = es.lookup k' := by
  match es with
  | .nil => simp [MaskEntries.setKey, MaskEntries.lookup, Ne.symm hne]
  | .cons key v rest =>
    simp only [MaskEntries.setKey]
    by_cases hk : key = k
    · subst hk
      simp [MaskEntries.lookup, Ne.symm hne]
    · simp only [if_neg hk, MaskEntries.lookup]
      by_cases hk' : key = k'
      · simp [hk']
      · simp only [if_neg hk']
        exact MaskEntries.lookup_setKey_other rest k k' sub hne

theorem NestedMask.hasKeys_nil (mask : NestedMask) : mask.hasKeys [] = true := by
  cases mask with
  | node es => rfl

theorem NestedMask.hasKeys_leaf (ks : List String)
    (h : (NestedMask.node .nil).hasKeys ks = true) : ks = [] := by
  match ks with
  | [] => rfl
  | k :: ks => simp [NestedMask.hasKeys, MaskEntries.lookup] at h

theorem addFuel_hasKeys (fuel : Nat) :
    ∀ (cs : List Char) (mask : NestedMask) (ks : List String),
      cs.length < fuel → (addFuel fuel cs mask).hasKeys ks = true →
      mask.hasKeys ks = true ∨
        (ks ≠ [] ∧ (∀ s ∈ ks, s ≠ "") ∧
          ks <+: (segsOf cs).map (fun l => String.mk l)) := by
  induction fuel with
  | zero => intro cs mask ks hlen _; omega
  | succ fuel ih =>
    intro cs mask ks hlen h
    rw [addFuel] at h
    split at h
    · exact Or.inl h
    · rename_i hcs
      split at h
      · rename_i hdot
        -- no dot: the whole path becomes a leaf key
        match ks with
        | [] => exact Or.inl (NestedMask.hasKeys_nil mask)
        | k :: ks' =>
          match mask with
          | .node es =>
            simp only [NestedMask.setKey, NestedMask.hasKeys] at h
            by_cases hk : k = String.mk cs
            · subst hk
              rw [MaskEntries.lookup_setKey_self] at h
              have hks' := NestedMask.hasKeys_leaf ks' h
              subst hks'
              refine Or.inr ⟨by simp, ?_, ?_⟩
              · intro s hs
                simp only [List.mem_singleton] at hs
                subst hs
                simp only [List.isEmpty_iff] at hcs
                intro hemp
                rw [show ("" : String) = String.mk [] from rfl] at hemp
                exact hcs (by injection hemp)
              · rw [segsOf_eq_of_none cs hdot]
                simp
            · rw [MaskEntries.lookup_setKey_other es _ _ _ hk] at h
              refine Or.inl ?_
              simp only [NestedMask.hasKeys]
              exact h
      · rename_i i hdot
        split at h
        · exact Or.inl h
        · rename_i hfield
          match ks with
          | [] => exact Or.inl (NestedMask.hasKeys_nil mask)
          | k :: ks' =>
            match mask with
            | .node es =>
              simp only [NestedMask.setKey, NestedMask.hasKeys] at h
              by_cases hk : k = String.mk (cs.take i)
              · subst hk
                rw [MaskEntries.lookup_setKey_self] at h
                have hrest : (cs.drop (i + 1)).length < fuel := by
                  have := List.length_drop (i + 1) cs
                  simp only [List.isEmpty_iff] at hcs
                  have : cs.length ≠ 0 := fun hc => hcs (List.eq_nil_of_length_eq_zero hc)
                  omega
                have hseg := segsOf_split cs i hdot
                have hfne : String.mk (cs.take i) ≠ "" := by
                  simp only [List.isEmpty_iff] at hfield
                  intro hemp
                  rw [show ("" : String) = String.mk [] from rfl] at hemp
                  exact hfield (by injection hemp)
                rcases ih (cs.drop (i + 1)) _ ks' hrest h with hnested | ⟨hne, hall, hpre⟩
                · -- the chain continues in the reused / fresh nested node
                  cases hlk : (NestedMask.node es).lookup (String.mk (cs.take i)) with
                  | some sub0 =>
                    rw [hlk] at hnested
                    simp only [Option.getD_some] at hnested
                    refine Or.inl ?_
                    simp only [NestedMask.hasKeys]
                    simp only [NestedMask.lookup] at hlk
                    rw [hlk]
                    exact hnested
                  | none =>
                    rw [hlk] at hnested
                    simp only [Option.getD_none] at hnested
                    have hks' := NestedMask.hasKeys_leaf ks' hnested
                    subst hks'
                    refine Or.inr ⟨by simp, ?_, ?_⟩
                    · intro s hs
                      simp only [List.mem_singleton] at hs
                      subst hs
                      exact hfne
                    · rw [hseg]
                      simp
                · refine Or.inr ⟨by simp, ?_, ?_⟩
                  · intro s hs
                    simp only [List.mem_cons] at hs
                    rcases hs with rfl | hs
                    · exact hfne
                    · exact hall s hs
                  · rw [hseg]
                    simp only [List.map_cons]
                    exact (List.cons_prefix_cons).2 ⟨rfl, hpre⟩
              · rw [MaskEntries.lookup_setKey_other es _ _ _ hk] at h
                refine Or.inl ?_
                simp only [NestedMask.hasKeys]
                exact h

theorem addFuel_mono (fuel : Nat) :
    ∀ (cs : List Char) (mask : NestedMask) (ks : List String),
      (∃ seg ∈ segsOf cs, seg = []) → mask.hasKeys ks = true →
      (addFuel fuel cs mask).hasKeys ks = true := by
  induction fuel with
  | zero => intro cs mask ks _ h; exact h
  | succ fuel ih =>
    intro cs mask ks hemp h
    rw [addFuel]
    split
    · exact h
    · rename_i hcs
      split
      · rename_i hdot
        exfalso
        rw [segsOf_eq_of_none cs hdot] at hemp
        obtain ⟨seg, hmem, hsege⟩ := hemp
        simp only [List.mem_singleton] at hmem
        simp only [List.isEmpty_iff] at hcs
        exact hcs (hmem ▸ hsege)
      · rename_i i hdot
        split
        · exact h
        · rename_i hfield
          have hseg := segsOf_split cs i hdot
          have hrest_emp : ∃ seg ∈ segsOf (cs.drop (i + 1)), seg = [] := by
            rw [hseg] at hemp
            obtain ⟨seg, hmem, hsege⟩ := hemp
            simp only [List.mem_cons] at hmem
            rcases hmem with rfl | hmem
            · exfalso
              simp only [List.isEmpty_iff] at hfield
              exact hfield hsege
            · exact ⟨seg, hmem, hsege⟩
          match ks with
          | [] => exact NestedMask.hasKeys_nil _
          | k :: ks' =>
            match mask with
            | .node es =>
              simp only [NestedMask.hasKeys] at h
              cases hlk : es.lookup k with
              | none =>
                rw [hlk] at h
                exact absurd h (by simp)
              | some sub0 =>
                rw [hlk] at h
                simp only [NestedMask.setKey, NestedMask.lookup,
                  NestedMask.hasKeys]
                by_cases hk : k = String.mk (cs.take i)
                · subst hk
                  rw [MaskEntries.lookup_setKey_self]
                  rw [hlk]
                  simp only [Option.getD_some]
                  exact ih _ sub0 ks' hrest_emp h
                · rw [MaskEntries.lookup_setKey_other es _ _ _ hk, hlk]
                  exact h

theorem fromPaths_aux (paths : List String) :
    ∀ (acc : NestedMask) (ks : List String),
      (paths.foldl (fun m p => m.add p) acc).hasKeys ks = true →
      acc.hasKeys ks = true ∨
        ∃ p ∈ paths, ks ≠ [] ∧ (∀ s ∈ ks, s ≠ "") ∧ ks <+: segsOfS p := by
  induction paths with
  | nil => intro acc ks h; exact Or.inl h
  | cons p ps ih =>
    intro acc ks h
    simp only [List.foldl_cons] at h
    rcases ih (acc.add p) ks h with hacc | ⟨q, hq, hrest⟩
    · unfold NestedMask.add at hacc
      have hlen : p.toList.length < p.length + 1 :=
        Nat.lt_succ_of_le (Nat.le_of_eq rfl)
      rcases addFuel_hasKeys (p.length + 1) p.toList acc ks hlen hacc with
        h1 | ⟨hne, hall, hpre⟩
      · exact Or.inl h1
      · exact Or.inr ⟨p, List.mem_cons_self p ps, hne, hall, hpre⟩
    · exact Or.inr ⟨q, List.mem_cons_of_mem p hq, hrest⟩

/-- C3: the path-compiler invariant.  (1) Any chain of keys present in a
compiled tree is an all-non-empty prefix of the segment list of one of the
input paths: a path contributes a key at level n only if every segment from
level 0 to n is non-empty, and nothing is ever added past an empty segment.
(2) Processing a path that contains an empty segment preserves every chain
already in the tree: nodes committed earlier remain and other input paths
are unaffected.  (3) In particular, compiling [".", "..", "...", ".a.", ""]
yields an empty tree, with no keys at all, including no "a". -/
theorem claim_C3_path_compiler_invariant :
    (∀ (paths : List String) (ks : List String),
      (NestedMaskFromPaths paths).hasKeys ks = true →
      ks = [] ∨
        ∃ p ∈ paths, ks ≠ [] ∧ (∀ s ∈ ks, s ≠ "") ∧ ks <+: segsOfS p) ∧
    (∀ (p : String) (mask : NestedMask) (ks : List String),
      "" ∈ segsOfS p → mask.hasKeys ks = true →
      (mask.add p).hasKeys ks = true) ∧
    NestedMaskFromPaths [".", "..", "...", ".a.", ""] = .node .nil := by
  refine ⟨?_, ?_, by decide⟩
  · intro paths ks h
    rcases fromPaths_aux paths (.node .nil) ks h with hemp | ⟨p, hp, hne, hall, hpre⟩
    · exact Or.inl (NestedMask.hasKeys_leaf ks hemp)
    · exact Or.inr ⟨p, hp, hne, hall, hpre⟩
  · intro p mask ks hemp h
    unfold NestedMask.add
    apply addFuel_mono
    · simp only [segsOfS, List.mem_map] at hemp
      obtain ⟨l, hl, hstr⟩ := hemp
      refine ⟨l, hl, ?_⟩
      rw [show ("" : String) = String.mk [] from rfl] at hstr
      injection hstr
    · exact h

/-- Witness for C3: processing the invalid path "a..b" over a tree that
already holds the chain ["z"] keeps that chain intact. -/
theorem claim_C3_witness :
    ((NestedMask.node (.cons "z" (.node .nil) .nil)).add "a..b").hasKeys
      ["z"] = true :=
  claim_C3_path_compiler_invariant.2.1 "a..b"
    (.node (.cons "z" (.node .nil) .nil)) ["z"] (by decide) (by decide)

/-- C9: the field-number resolver returns, for each requested number, the
declared name at that tag, skipping numbers with no corresponding field and
preserving input order and duplicates: it is a homomorphism on concatenation
of number lists, a missing number contributes nothing, a found number
contributes exactly its name, and `[1,1,2]` against `{1: id, 2: name}` yields
`["id","id","name"]`. -/
theorem claim_C9_field_number_resolver :
    (∀ (schema : List (Nat × String)) (ns1 ns2 : List Nat),
      PathsFromFieldNumbers schema (ns1 ++ ns2) =
        PathsFromFieldNumbers schema ns1 ++ PathsFromFieldNumbers schema ns2) ∧
    (∀ (schema : List (Nat × String)) (n : Nat),
      schema.find? (fun e => e.1 = n) = none →
      PathsFromFieldNumbers schema [n] = []) ∧
    (∀ (schema : List (Nat × String)) (n : Nat) (e : Nat × String),
      schema.find? (fun e => e.1 = n) = some e →
      PathsFromFieldNumbers schema [n] = [e.2]) ∧
    PathsFromFieldNumbers [(1, "id"), (2, "name")] [1, 1, 2] =
      ["id", "id", "name"] := by
  refine ⟨?_, ?_, ?_, by decide⟩
  · intro schema ns1 ns2
    simp [PathsFromFieldNumbers, List.filterMap_append]
  · intro schema n h
    simp [PathsFromFieldNumbers, h]
  · intro schema n e h
    simp [PathsFromFieldNumbers, h]

/-- Witness for C9: a found tag resolves to its declared name. -/
theorem claim_C9_witness :
    PathsFromFieldNumbers [(1, "id"), (2, "name")] [2] =
      [(Prod.mk 2 "name").2] :=
  claim_C9_field_number_resolver.2.2.1 [(1, "id"), (2, "name")] 2 (2, "name")
    (by decide)

/-- A cleared field is never present: `Range` skips it on the next pass. -/
theorem fvPresent_clearVal (v : FieldVal) : v.clearVal.fvPresent = false := by
  cases v with
  | scalar s => cases s <;> rfl
  | optScalar o => rfl
  | msgField p m => rfl
  | scalarList l => rfl
  | msgList l => rfl
  | scalarMap es => rfl
  | msgMap es => rfl

/-! Equation lemmas for `filterField`, one per branch of the Range callback. -/

theorem filterField_absent (mask : NestedMask) (name : String) (v : FieldVal)
    (hp : v.fvPresent = false) : filterField mask name v = some v := by
  unfold filterField
  rw [if_pos (by rw [hp]; rfl)]

theorem filterField_unnamed (mask : NestedMask) (name : String) (v : FieldVal)
    (hp : v.fvPresent = true) (hlk : mask.lookup name = none) :
    filterField mask name v = some v.clearVal := by
  unfold filterField
  split
  · rename_i hp2
    simp [hp] at hp2
  · split
    · rfl
    · rename_i sub2 hlk2
      rw [hlk] at hlk2
      exact Option.noConfusion hlk2

theorem filterField_leaf (mask : NestedMask) (name : String) (v : FieldVal)
    (sub : NestedMask) (hp : v.fvPresent = true)
    (hlk : mask.lookup name = some sub) (hse : sub.isEmpty = true) :
    filterField mask name v = some v := by
  unfold filterField
  split
  · rename_i hp2
    simp [hp] at hp2
  · split
    · rename_i hlk2
      rw [hlk] at hlk2
      exact Option.noConfusion hlk2
    · rename_i sub2 hlk2
      rw [hlk] at hlk2
      injection hlk2 with hlk2
      subst hlk2
      rw [if_pos hse]

theorem filterField_msgMap_eq (mask : NestedMask) (name : String)
    (entries : MsgEntries) (sub : NestedMask)
    (hp : (FieldVal.msgMap entries).fvPresent = true)
    (hlk : mask.lookup name = some sub) (hse : sub.isEmpty = false) :
    filterField mask name (.msgMap entries) =
      (match filterMsgEntries sub entries with
       | none => none
       | some entries' => some (.msgMap entries')) := by
  unfold filterField
  split
  · rename_i hp2
    simp [hp] at hp2
  · split
    · rename_i hlk2
      rw [hlk] at hlk2
      exact Option.noConfusion hlk2
    · rename_i sub2 hlk2
      rw [hlk] at hlk2
      injection hlk2 with hlk2
      subst hlk2
      rw [if_neg (by rw [hse]; simp)]

theorem filterField_scalarMap_eq (mask : NestedMask) (name : String)
    (l : List (String × Scalar)) (sub : NestedMask)
    (hp : (FieldVal.scalarMap l).fvPresent = true)
    (hlk : mask.lookup name = some sub) (hse : sub.isEmpty = false) :
    filterField mask name (.scalarMap l) =
      some (.scalarMap (l.filter (fun e => (sub.lookup e.1).isSome))) := by
  unfold filterField
  split
  · rename_i hp2
    simp [hp] at hp2
  · split
    · rename_i hlk2
      rw [hlk] at hlk2
      exact Option.noConfusion hlk2
    · rename_i sub2 hlk2
      rw [hlk] at hlk2
      injection hlk2 with hlk2
      subst hlk2
      rw [if_neg (by rw [hse]; simp)]

theorem filterField_msgList_eq (mask : NestedMask) (name : String)
    (l : MsgList) (sub : NestedMask)
    (hp : (FieldVal.msgList l).fvPresent = true)
    (hlk : mask.lookup name = some sub) (hse : sub.isEmpty = false) :
    filterField mask name (.msgList l) =
      (match filterMsgList sub l with
       | none => none
       | some l' => some (.msgList l')) := by
  unfold filterField
  split
  · rename_i hp2
    simp [hp] at hp2
  · split
    · rename_i hlk2
      rw [hlk] at hlk2
      exact Option.noConfusion hlk2
    · rename_i sub2 hlk2
      rw [hlk] at hlk2
      injection hlk2 with hlk2
      subst hlk2
      rw [if_neg (by rw [hse]; simp)]

theorem filterField_scalarList_eq (mask : NestedMask) (name : String)
    (l : List Scalar) (sub : NestedMask)
    (hp : (FieldVal.scalarList l).fvPresent = true)
    (hlk : mask.lookup name = some sub) (hse : sub.isEmpty = false) :
    filterField mask name (.scalarList l) = none := by
  unfold filterField
  split
  · rename_i hp2
    simp [hp] at hp2
  · split
    · rename_i hlk2
      rw [hlk] at hlk2
      exact Option.noConfusion hlk2
    · rename_i sub2 hlk2
      rw [hlk] at hlk2
      injection hlk2 with hlk2
      subst hlk2
      rw [if_neg (by rw [hse]; simp)]

theorem filterField_msgField_eq (mask : NestedMask) (name : String)
    (p : Bool) (m : Msg) (sub : NestedMask)
    (hp : (FieldVal.msgField p m).fvPresent = true)
    (hlk : mask.lookup name = some sub) (hse : sub.isEmpty = false) :
    filterField mask name (.msgField p m) =
      (match sub.Filter m with
       | none => none
       | some m' => some (.msgField p m')) := by
  unfold filterField
  split
  · rename_i hp2
    simp [hp] at hp2
  · split
    · rename_i hlk2
      rw [hlk] at hlk2
      exact Option.noConfusion hlk2
    · rename_i sub2 hlk2
      rw [hlk] at hlk2
      injection hlk2 with hlk2
      subst hlk2
      rw [if_neg (by rw [hse]; simp)]

theorem filterField_scalar_eq (mask : NestedMask) (name : String)
    (s : Scalar) (sub : NestedMask)
    (hp : (FieldVal.scalar s).fvPresent = true)
    (hlk : mask.lookup name = some sub) (hse : sub.isEmpty = false) :
    filterField mask name (.scalar s) = some (.scalar s) := by
  unfold filterField
  split
  · rename_i hp2
    simp [hp] at hp2
  · split
    · rename_i hlk2
      rw [hlk] at hlk2
      exact Option.noConfusion hlk2
    · rename_i sub2 hlk2
      rw [hlk] at hlk2
      injection hlk2 with hlk2
      subst hlk2
      rw [if_neg (by rw [hse]; simp)]

theorem filterField_optScalar_eq (mask : NestedMask) (name : String)
    (o : Option Scalar) (sub : NestedMask)
    (hp : (FieldVal.optScalar o).fvPresent = true)
    (hlk : mask.lookup name = some sub) (hse : sub.isEmpty = false) :
    filterField mask name (.optScalar o) = some (.optScalar o) := by
  unfold filterField
  split
  · rename_i hp2
    simp [hp] at hp2
  · split
    · rename_i hlk2
      rw [hlk] at hlk2
      exact Option.noConfusion hlk2
    · rename_i sub2 hlk2
      rw [hlk] at hlk2
      injection hlk2 with hlk2
      subst hlk2
      rw [if_neg (by rw [hse]; simp)]

mutual
theorem filterMsg_idem (mask : NestedMask) (m m' : Msg)
    (h : mask.Filter m = some m') : mask.Filter m' = some m' := by
  match m with
  | .mk fs =>
    unfold NestedMask.Filter at h
    split at h
    · rename_i hme
      injection h with h
      subst h
      unfold NestedMask.Filter
      rw [if_pos hme]
    · rename_i hme
      split at h
      · exact Option.noConfusion h
      · rename_i fs' hfs
        injection h with h
        subst h
        unfold NestedMask.Filter
        rw [if_neg hme, filterFields_idem mask fs fs' hfs]
termination_by sizeOf m
decreasing_by
  all_goals simp_wf
  all_goals try simp
  all_goals try omega

theorem filterFields_idem (mask : NestedMask) (fs fs' : Fields)
    (h : filterFields mask fs = some fs') : filterFields mask fs' = some fs' := by
  match fs with
  | .nil =>
    unfold filterFields at h
    injection h with h
    subst h
    rfl
  | .cons name v rest =>
    unfold filterFields at h
    split at h
    · rename_i v' rest' hv hrest
      injection h with h
      subst h
      unfold filterFields
      rw [filterField_idem mask name v v' hv,
        filterFields_idem mask rest rest' hrest]
    · exact Option.noConfusion h
termination_by sizeOf fs
decreasing_by
  all_goals simp_wf
  all_goals try simp
  all_goals try omega

theorem filterField_idem (mask : NestedMask) (name : String) (v v' : FieldVal)
    (h : filterField mask name v = some v') :
    filterField mask name v' = some v' := by
  match v with
  | .scalar s =>
    cases hb : (FieldVal.scalar s).fvPresent with
    | false =>
      rw [filterField_absent mask name _ hb] at h
      injection h with h
      subst h
      exact filterField_absent mask name _ hb
    | true =>
      cases hlk : mask.lookup name with
      | none =>
        rw [filterField_unnamed mask name _ hb hlk] at h
        injection h with h
        subst h
        exact filterField_absent mask name _ (fvPresent_clearVal _)
      | some sub =>
        cases hse : sub.isEmpty with
        | true =>
          rw [filterField_leaf mask name _ sub hb hlk hse] at h
          injection h with h
          subst h
          exact filterField_leaf mask name _ sub hb hlk hse
        | false =>
          rw [filterField_scalar_eq mask name s sub hb hlk hse] at h
          injection h with h
          subst h
          exact filterField_scalar_eq mask name s sub hb hlk hse
  | .optScalar o =>
    cases hb : (FieldVal.optScalar o).fvPresent with
    | false =>
      rw [filterField_absent mask name _ hb] at h
      injection h with h
      subst h
      exact filterField_absent mask name _ hb
    | true =>
      cases hlk : mask.lookup name with
      | none =>
        rw [filterField_unnamed mask name _ hb hlk] at h
        injection h with h
        subst h
        exact filterField_absent mask name _ (fvPresent_clearVal _)
      | some sub =>
        cases hse : sub.isEmpty with
        | true =>
          rw [filterField_leaf mask name _ sub hb hlk hse] at h
          injection h with h
          subst h
          exact filterField_leaf mask name _ sub hb hlk hse
        | false =>
          rw [filterField_optScalar_eq mask name o sub hb hlk hse] at h
          injection h with h
          subst h
          exact filterField_optScalar_eq mask name o sub hb hlk hse
  | .scalarList l =>
    cases hb : (FieldVal.scalarList l).fvPresent with
    | false =>
      rw [filterField_absent mask name _ hb] at h
      injection h with h
      subst h
      exact filterField_absent mask name _ hb
    | true =>
      cases hlk : mask.lookup name with
      | none =>
        rw [filterField_unnamed mask name _ hb hlk] at h
        injection h with h
        subst h
        exact filterField_absent mask name _ (fvPresent_clearVal _)
      | some sub =>
        cases hse : sub.isEmpty with
        | true =>
          rw [filterField_leaf mask name _ sub hb hlk hse] at h
          injection h with h
          subst h
          exact filterField_leaf mask name _ sub hb hlk hse
        | false =>
          rw [filterField_scalarList_eq mask name l sub hb hlk hse] at h
          exact Option.noConfusion h
  | .scalarMap l =>
    cases hb : (FieldVal.scalarMap l).fvPresent with
    | false =>
      rw [filterField_absent mask name _ hb] at h
      injection h with h
      subst h
      exact filterField_absent mask name _ hb
    | true =>
      cases hlk : mask.lookup name with
      | none =>
        rw [filterField_unnamed mask name _ hb hlk] at h
        injection h with h
        subst h
        exact filterField_absent mask name _ (fvPresent_clearVal _)
      | some sub =>
        cases hse : sub.isEmpty with
        | true =>
          rw [filterField_leaf mask name _ sub hb hlk hse] at h
          injection h with h
          subst h
          exact filterField_leaf mask name _ sub hb hlk hse
        | false =>
          rw [filterField_scalarMap_eq mask name l sub hb hlk hse] at h
          injection h with h
          subst h
          have hidem : (l.filter (fun e => (sub.lookup e.1).isSome)).filter
              (fun e => (sub.lookup e.1).isSome) =
              l.filter (fun e => (sub.lookup e.1).isSome) :=
            List.filter_eq_self.mpr (fun a ha => (List.mem_filter.mp ha).2)
          cases hL : (l.filter (fun e => (sub.lookup e.1).isSome)).isEmpty with
          | true =>
            exact filterField_absent mask name _
              (by simp [FieldVal.fvPresent, hL])
          | false =>
            rw [filterField_scalarMap_eq mask name
              (l.filter (fun e => (sub.lookup e.1).isSome)) sub
              (by simp [FieldVal.fvPresent, hL]) hlk hse, hidem]
  | .msgList l =>
    cases hb : (FieldVal.msgList l).fvPresent with
    | false =>
      rw [filterField_absent mask name _ hb] at h
      injection h with h
      subst h
      exact filterField_absent mask name _ hb
    | true =>
      cases hlk : mask.lookup name with
      | none =>
        rw [filterField_unnamed mask name _ hb hlk] at h
        injection h with h
        subst h
        exact filterField_absent mask name _ (fvPresent_clearVal _)
      | some sub =>
        cases hse : sub.isEmpty with
        | true =>
          rw [filterField_leaf mask name _ sub hb hlk hse] at h
          injection h with h
          subst h
          exact filterField_leaf mask name _ sub hb hlk hse
        | false =>
          rw [filterField_msgList_eq mask name l sub hb hlk hse] at h
          split at h
          · exact Option.noConfusion h
          · rename_i l' hml
            injection h with h
            subst h
            match l' with
            | .nil => exact filterField_absent mask name (.msgList .nil) rfl
            | .cons m0 rest0 =>
              rw [filterField_msgList_eq mask name (.cons m0 rest0) sub rfl
                hlk hse]
              rw [filterMsgList_idem sub l (.cons m0 rest0) hml]
  | .msgMap entries =>
    cases hb : (FieldVal.msgMap entries).fvPresent with
    | false =>
      rw [filterField_absent mask name _ hb] at h
      injection h with h
      subst h
      exact filterField_absent mask name _ hb
    | true =>
      cases hlk : mask.lookup name with
      | none =>
        rw [filterField_unnamed mask name _ hb hlk] at h
        injection h with h
        subst h
        exact filterField_absent mask name _ (fvPresent_clearVal _)
      | some sub =>
        cases hse : sub.isEmpty with
        | true =>
          rw [filterField_leaf mask name _ sub hb hlk hse] at h
          injection h with h
          subst h
          exact filterField_leaf mask name _ sub hb hlk hse
        | false =>
          rw [filterField_msgMap_eq mask name entries sub hb hlk hse] at h
          split at h
          · exact Option.noConfusion h
          · rename_i entries' hentries
            injection h with h
            subst h
            match entries' with
            | .nil => exact filterField_absent mask name (.msgMap .nil) rfl
            | .cons k0 v0 rest0 =>
              rw [filterField_msgMap_eq mask name (.cons k0 v0 rest0) sub rfl
                hlk hse]
              rw [filterMsgEntries_idem sub entries (.cons k0 v0 rest0) hentries]
  | .msgField p m0 =>
    cases hb : (FieldVal.msgField p m0).fvPresent with
    | false =>
      rw [filterField_absent mask name _ hb] at h
      injection h with h
      subst h
      exact filterField_absent mask name _ hb
    | true =>
      cases hlk : mask.lookup name with
      | none =>
        rw [filterField_unnamed mask name _ hb hlk] at h
        injection h with h
        subst h
        exact filterField_absent mask name _ (fvPresent_clearVal _)
      | some sub =>
        cases hse : sub.isEmpty with
        | true =>
          rw [filterField_leaf mask name _ sub hb hlk hse] at h
          injection h with h
          subst h
          exact filterField_leaf mask name _ sub hb hlk hse
        | false =>
          rw [filterField_msgField_eq mask name p m0 sub hb hlk hse] at h
          split at h
          · exact Option.noConfusion h
          · rename_i m0' hm0
            injection h with h
            subst h
            have hptrue : p = true := hb
            subst hptrue
            rw [filterField_msgField_eq mask name true m0' sub rfl hlk hse]
            rw [filterMsg_idem sub m0 m0' hm0]
termination_by sizeOf v
decreasing_by
  all_goals simp_wf
  all_goals try simp
  all_goals try omega

theorem filterMsgEntries_idem (sub : NestedMask) (entries entries' : MsgEntries)
    (h : filterMsgEntries sub entries = some entries') :
    filterMsgEntries sub entries' = some entries' := by
  match entries with
  | .nil =>
    unfold filterMsgEntries at h
    injection h with h
    subst h
    rfl
  | .cons k v rest =>
    unfold filterMsgEntries at h
    split at h
    · exact filterMsgEntries_idem sub rest entries' h
    · rename_i child hlk
      split at h
      · rename_i v1 rest1 hv1 hrest1
        injection h with h
        subst h
        have hv1' : (if child.isEmpty = true then some v1 else child.Filter v1)
            = some v1 := by
          by_cases hce : child.isEmpty = true
          · rw [if_pos hce]
          · rw [if_neg hce]
            rw [if_neg hce] at hv1
            exact filterMsg_idem child v v1 hv1
        unfold filterMsgEntries
        split
        · rename_i hlk2
          rw [hlk] at hlk2
          exact Option.noConfusion hlk2
        · rename_i child2 hlk2
          rw [hlk] at hlk2
          injection hlk2 with hlk2
          subst hlk2
          rw [hv1', filterMsgEntries_idem sub rest rest1 hrest1]
      · exact Option.noConfusion h
termination_by sizeOf entries
decreasing_by
  all_goals simp_wf
  all_goals try simp
  all_goals try omega

theorem filterMsgList_idem (sub : NestedMask) (l l' : MsgList)
    (h : filterMsgList sub l = some l') : filterMsgList sub l' = some l' := by
  match l with
  | .nil =>
    unfold filterMsgList at h
    injection h with h
    subst h
    rfl
  | .cons m rest =>
    unfold filterMsgList at h
    split at h
    · rename_i m1 rest1 hm1 hrest1
      injection h with h
      subst h
      unfold filterMsgList
      rw [filterMsg_idem sub m m1 hm1, filterMsgList_idem sub rest rest1 hrest1]
    · exact Option.noConfusion h
termination_by sizeOf l
decreasing_by
  all_goals simp_wf
  all_goals try simp
  all_goals try omega
end

/-- C6: Filter is idempotent.  For every message and every selection tree,
if filtering succeeds once, filtering the result again returns it
unchanged. -/
theorem claim_C6_filter_idempotent (mask : NestedMask) (m m' : Msg)
    (h : mask.Filter m = some m') : mask.Filter m' = some m' :=
  filterMsg_idem mask m m' h

/-- Witness for C6 at a concrete two-field message and one-key mask. -/
theorem claim_C6_witness :
    (NestedMask.node (.cons "a" (.node .nil) .nil)).Filter
      (.mk (.cons "a" (.scalar (.int 5)) (.cons "b" (.scalar (.int 0)) .nil)))
    = some (.mk (.cons "a" (.scalar (.int 5))
        (.cons "b" (.scalar (.int 0)) .nil))) :=
  claim_C6_filter_idempotent (NestedMask.node (.cons "a" (.node .nil) .nil))
    (.mk (.cons "a" (.scalar (.int 5)) (.cons "b" (.scalar (.int 7)) .nil)))
    (.mk (.cons "a" (.scalar (.int 5)) (.cons "b" (.scalar (.int 0)) .nil)))
    (by decide)

theorem MaskEntries.setKey_self (es : MaskEntries) (k : String)
    (sub : NestedMask) (h : es.lookup k = some sub) : es.setKey k sub = es := by
  match es with
  | .nil => simp [MaskEntries.lookup] at h
  | .cons key v rest =>
    simp only [MaskEntries.lookup] at h
    unfold MaskEntries.setKey
    by_cases hk : key = k
    · rw [if_pos hk] at h ⊢
      injection h with h
      rw [h]
    · rw [if_neg hk] at h ⊢
      rw [MaskEntries.setKey_self rest k sub h]

theorem NestedMask.setKey_lookup_self (mask : NestedMask) (k : String)
    (sub : NestedMask) (h : mask.lookup k = some sub) :
    mask.setKey k sub = mask := by
  match mask with
  | .node es =>
    show NestedMask.node (es.setKey k sub) = .node es
    rw [MaskEntries.setKey_self es k sub h]

mutual
theorem filterMaskAfter_id (mask : NestedMask) (m : Msg) :
    filterMaskAfter mask m = mask := by
  match m with
  | .mk fs =>
    unfold filterMaskAfter
    split
    · rfl
    · exact filterMaskAfterFields_id mask fs
termination_by sizeOf m
decreasing_by
  all_goals simp_wf
  all_goals try simp
  all_goals try omega

theorem filterMaskAfterFields_id (mask : NestedMask) (fs : Fields) :
    filterMaskAfterFields mask fs = mask := by
  match fs with
  | .nil => rfl
  | .cons name v rest =>
    unfold filterMaskAfterFields
    rw [filterMaskAfterField_id mask name v]
    exact filterMaskAfterFields_id mask rest
termination_by sizeOf fs
decreasing_by
  all_goals simp_wf
  all_goals try simp
  all_goals try omega

theorem filterMaskAfterField_id (mask : NestedMask) (name : String)
    (v : FieldVal) : filterMaskAfterField mask name v = mask := by
  match v with
  | .msgMap entries =>
    unfold filterMaskAfterField
    split
    · rfl
    · split
      · rfl
      · rename_i sub heq
        split
        · rfl
        · show mask.setKey name (filterMaskAfterEntries sub entries) = mask
          rw [filterMaskAfterEntries_id sub entries]
          exact NestedMask.setKey_lookup_self mask name sub heq
  | .msgList l =>
    unfold filterMaskAfterField
    split
    · rfl
    · split
      · rfl
      · rename_i sub heq
        split
        · rfl
        · show mask.setKey name (filterMaskAfterList sub l) = mask
          rw [filterMaskAfterList_id sub l]
          exact NestedMask.setKey_lookup_self mask name sub heq
  | .msgField p m0 =>
    unfold filterMaskAfterField
    split
    · rfl
    · split
      · rfl
      · rename_i sub heq
        split
        · rfl
        · show mask.setKey name (filterMaskAfter sub m0) = mask
          rw [filterMaskAfter_id sub m0]
          exact NestedMask.setKey_lookup_self mask name sub heq
  | .scalar s =>
    unfold filterMaskAfterField
    split
    · rfl
    · split
      · rfl
      · split
        · rfl
        · rfl
  | .optScalar o =>
    unfold filterMaskAfterField
    split
    · rfl
    · split
      · rfl
      · split
        · rfl
        · rfl
  | .scalarList l =>
    unfold filterMaskAfterField
    split
    · rfl
    · split
      · rfl
      · split
        · rfl
        · rfl
  | .scalarMap l =>
    unfold filterMaskAfterField
    split
    · rfl
    · split
      · rfl
      · split
        · rfl
        · rfl
termination_by sizeOf v
decreasing_by
  all_goals simp_wf
  all_goals try simp
  all_goals try omega

theorem filterMaskAfterEntries_id (sub : NestedMask) (entries : MsgEntries) :
    filterMaskAfterEntries sub entries = sub := by
  match entries with
  | .nil => rfl
  | .cons k v rest =>
    unfold filterMaskAfterEntries
    split
    · exact filterMaskAfterEntries_id sub rest
    · rename_i child heq
      split
      · exact filterMaskAfterEntries_id sub rest
      · rw [filterMaskAfter_id child v,
          NestedMask.setKey_lookup_self sub k child heq]
        exact filterMaskAfterEntries_id sub rest
termination_by sizeOf entries
decreasing_by
  all_goals simp_wf
  all_goals try simp
  all_goals try omega

theorem filterMaskAfterList_id (sub : NestedMask) (l : MsgList) :
    filterMaskAfterList sub l = sub := by
  match l with
  | .nil => rfl
  | .cons m rest =>
    unfold filterMaskAfterList
    rw [filterMaskAfter_id sub m]
    exact filterMaskAfterList_id sub rest
termination_by sizeOf l
decreasing_by
  all_goals simp_wf
  all_goals try simp
  all_goals try omega
end

mutual
theorem pruneMaskAfter_id (mask : NestedMask) (m : Msg) :
    pruneMaskAfter mask m = mask := by
  match m with
  | .mk fs =>
    unfold pruneMaskAfter
    split
    · rfl
    · exact pruneMaskAfterFields_id mask fs
termination_by sizeOf m
decreasing_by
  all_goals simp_wf
  all_goals try simp
  all_goals try omega

theorem pruneMaskAfterFields_id (mask : NestedMask) (fs : Fields) :
    pruneMaskAfterFields mask fs = mask := by
  match fs with
  | .nil => rfl
  | .cons name v rest =>
    unfold pruneMaskAfterFields
    rw [pruneMaskAfterField_id mask name v]
    exact pruneMaskAfterFields_id mask rest
termination_by sizeOf fs
decreasing_by
  all_goals simp_wf
  all_goals try simp
  all_goals try omega

theorem pruneMaskAfterField_id (mask : NestedMask) (name : String)
    (v : FieldVal) : pruneMaskAfterField mask name v = mask := by
  match v with
  | .msgMap entries =>
    unfold pruneMaskAfterField
    split
    · rfl
    · split
      · rfl
      · rename_i sub heq
        split
        · rfl
        · show mask.setKey name (pruneMaskAfterEntries sub entries) = mask
          rw [pruneMaskAfterEntries_id sub entries]
          exact NestedMask.setKey_lookup_self mask name sub heq
  | .msgList l =>
    unfold pruneMaskAfterField
    split
    · rfl
    · split
      · rfl
      · rename_i sub heq
        split
        · rfl
        · show mask.setKey name (pruneMaskAfterList sub l) = mask
          rw [pruneMaskAfterList_id sub l]
          exact NestedMask.setKey_lookup_self mask name sub heq
  | .msgField p m0 =>
    unfold pruneMaskAfterField
    split
    · rfl
    · split
      · rfl
      · rename_i sub heq
        split
        · rfl
        · show mask.setKey name (pruneMaskAfter sub m0) = mask
          rw [pruneMaskAfter_id sub m0]
          exact NestedMask.setKey_lookup_self mask name sub heq
  | .scalar s =>
    unfold pruneMaskAfterField
    split
    · rfl
    · split
      · rfl
      · split
        · rfl
        · rfl
  | .optScalar o =>
    unfold pruneMaskAfterField
    split
    · rfl
    · split
      · rfl
      · split
        · rfl
        · rfl
  | .scalarList l =>
    unfold pruneMaskAfterField
    split
    · rfl
    · split
      · rfl
      · split
        · rfl
        · rfl
  | .scalarMap l =>
    unfold pruneMaskAfterField
    split
    · rfl
    · split
      · rfl
      · split
        · rfl
        · rfl
termination_by sizeOf v
decreasing_by
  all_goals simp_wf
  all_goals try simp
  all_goals try omega

theorem pruneMaskAfterEntries_id (sub : NestedMask) (entries : MsgEntries) :
    pruneMaskAfterEntries sub entries = sub := by
  match entries with
  | .nil => rfl
  | .cons k v rest =>
    unfold pruneMaskAfterEntries
    split
    · exact pruneMaskAfterEntries_id sub rest
    · rename_i child heq
      split
      · exact pruneMaskAfterEntries_id sub rest
      · rw [pruneMaskAfter_id child v,
          NestedMask.setKey_lookup_self sub k child heq]
        exact pruneMaskAfterEntries_id sub rest
termination_by sizeOf entries
decreasing_by
  all_goals simp_wf
  all_goals try simp
  all_goals try omega

theorem pruneMaskAfterList_id (sub : NestedMask) (l : MsgList) :
    pruneMaskAfterList sub l = sub := by
  match l with
  | .nil => rfl
  | .cons m rest =>
    unfold pruneMaskAfterList
    rw [pruneMaskAfter_id sub m]
    exact pruneMaskAfterList_id sub rest
termination_by sizeOf l
decreasing_by
  all_goals simp_wf
  all_goals try simp
  all_goals try omega
end

theorem owMaskTrace_id (fuel : Nat) :
    (∀ (mask : NestedMask) (src dest : Msg),
      owMaskTrace fuel mask src dest = mask) ∧
    (∀ (es : MaskEntries) (src dest : Msg),
      owMaskTraceFields fuel es src dest = es) ∧
    (∀ (name : String) (sub : NestedMask) (src dest : Msg),
      owMaskTraceField fuel name sub src dest = sub) ∧
    (∀ (sub : NestedMask) (entries : MsgEntries),
      owMaskTraceMap fuel sub entries = sub) ∧
    (∀ (sub : NestedMask) (srcL destL : MsgList),
      owMaskTraceList fuel sub srcL destL = sub) := by
  induction fuel with
  | zero =>
    refine ⟨fun mask _ _ => rfl, fun es _ _ => rfl, fun _ sub _ _ => rfl,
      fun sub _ => rfl, fun sub _ _ => rfl⟩
  | succ fuel ih =>
    obtain ⟨ihA, ihB, ihC, ihD, ihE⟩ := ih
    refine ⟨?_, ?_, ?_, ?_, ?_⟩
    · intro mask src dest
      match mask with
      | .node es =>
        unfold owMaskTrace
        rw [ihB es src dest]
    · intro es src dest
      match es with
      | .nil => rfl
      | .cons name sub rest =>
        unfold owMaskTraceFields
        rw [ihC name sub src dest]
        split
        · rfl
        · rw [ihB]
    · intro name sub src dest
      unfold owMaskTraceField
      split
      · rfl
      · split
        · rfl
        · split
          · exact ihD sub _
          · split
            · exact ihE sub _ _
            · rfl
          · split
            · exact ihA sub _ _
            · rfl
          · rfl
    · intro sub entries
      match entries with
      | .nil => rfl
      | .cons k v rest =>
        unfold owMaskTraceMap
        split
        · exact ihD sub rest
        · rename_i child heq
          split
          · exact ihD sub rest
          · rw [ihA child v v.defaultMsg,
              NestedMask.setKey_lookup_self sub k child heq]
            exact ihD sub rest
    · intro sub srcL destL
      match srcL, destL with
      | .nil, _ => rfl
      | .cons s ss, .nil =>
        unfold owMaskTraceList
        rw [ihA sub s s.defaultMsg]
        exact ihE sub ss .nil
      | .cons s ss, .cons d ds =>
        unfold owMaskTraceList
        rw [ihA sub s d]
        exact ihE sub ss ds

/-- C8: the selection tree is read-only for all three operations.  Each trace
function rebuilds the mask object graph exactly as the corresponding
operation's traversal leaves it (every place the Go code takes a submask
reference and recurses, the trace reassembles the parent from the recursive
result); each trace is the identity, so one tree instance can be applied to
arbitrarily many messages. -/
theorem claim_C8_mask_read_only :
    (∀ (mask : NestedMask) (m : Msg), filterMaskAfter mask m = mask) ∧
    (∀ (mask : NestedMask) (m : Msg), pruneMaskAfter mask m = mask) ∧
    (∀ (fuel : Nat) (mask : NestedMask) (src dest : Msg),
      owMaskTrace fuel mask src dest = mask) :=
  ⟨filterMaskAfter_id, pruneMaskAfter_id,
    fun fuel => (owMaskTrace_id fuel).1⟩

end Fmutils
